import Mathlib

/-!
# Insertion-ordered map (`orderedmap.go`)

A shallow embedding of the `OrderedMap` of `src/orderedmap.go`.

* The slice `kvList []*KV` is a list of optional pairs: `none` is a nil pointer
  (a tombstone left by `Delete`), `some kv` a pointer to a pair.  `Set` is the
  only place that allocates a pair and `GetList` hands out copies, so no pair
  is shared between two maps and pointers can be modelled by their contents.
* The Go map `idxLookup map[KeyType]int` is a finite map from keys to
  positions.  The only values ever stored are lengths of `kvList`, so positions
  are natural numbers.  The map is the one made by `NewOrderedMap`; the nil map
  of a zero-value struct, which reads as empty and on which a store panics, is
  not a state of the embedding.
* A run-time panic (nil dereference, index out of range) is the result `none`
  of an operation; `some r` is a normal return of `r`.
* `MarshalJSON` takes the two uses of `json.Marshal`, on a key and on a value, as
  encoder arguments that return a text or an error; the byte buffer is a string.
-/

/-- The key type `type KeyType string`. -/
abbrev KeyType := String

/-- The value type `type ValueType interface{}`: the nil interface or a dynamic
value.  No map operation inspects a value; the constructors give distinct
payloads, `func` standing for a value the JSON encoder rejects. -/
inductive ValueType where
  | nil
  | int (n : Int)
  | str (s : String)
  | bool (b : Bool)
  | func (id : Nat)
  deriving DecidableEq, Repr

/-- The pair `type KV struct { Key KeyType; Value ValueType }`. -/
structure KV where
  Key : KeyType
  Value : ValueType
  deriving DecidableEq, Repr

/-- The map `type OrderedMap struct { kvList []*KV; idxLookup map[KeyType]int }`. -/
structure OrderedMap where
  kvList : List (Option KV)
  idxLookup : Finmap (fun _ : KeyType => Nat)
  deriving DecidableEq

/-- The state built at the start of `NewOrderedMap`: a nil slice and an empty index. -/
def OrderedMap.empty : OrderedMap :=
  { kvList := [], idxLookup := ∅ }

/-- `Set`: a key missing from the index is recorded at position `len(kvList)` and a
new pair is appended; otherwise the value of the indexed slot is overwritten, which
panics when the index is out of range or the slot is nil. -/
def OrderedMap.Set (om : OrderedMap) (key : KeyType) (value : ValueType) :
    Option OrderedMap :=
  match om.idxLookup.lookup key with
  | none =>
    some { kvList := om.kvList ++ [some { Key := key, Value := value }],
           idxLookup := om.idxLookup.insert key om.kvList.length }
  | some idx =>
    match om.kvList[idx]? with
    | some (some kv) =>
      some { kvList := om.kvList.set idx (some { Key := kv.Key, Value := value }),
             idxLookup := om.idxLookup }
    | _ => none

/-- `Get`: the value of the indexed slot, or nil when the key is not in the index.
Reading the slot panics when the index is out of range or the slot is nil. -/
def OrderedMap.Get (om : OrderedMap) (key : KeyType) : Option ValueType :=
  match om.idxLookup.lookup key with
  | some idx =>
    match om.kvList[idx]? with
    | some (some kv) => some kv.Value
    | _ => none
  | none => some ValueType.nil

/-- `Exists`: whether the key is in the index. -/
def OrderedMap.Exists (om : OrderedMap) (key : KeyType) : Bool :=
  (om.idxLookup.lookup key).isSome

/-- `Delete`: an indexed key is removed from the index and its slot is set to nil,
which panics when the index is out of range; any other key leaves the map alone. -/
def OrderedMap.Delete (obj : OrderedMap) (key : KeyType) : Option OrderedMap :=
  match obj.idxLookup.lookup key with
  | some idx =>
    if idx < obj.kvList.length then
      some { kvList := obj.kvList.set idx none,
             idxLookup := obj.idxLookup.erase key }
    else none
  | none => some obj

/-- `GetKeys`: the keys of the non-nil slots, in slot order. -/
def OrderedMap.GetKeys (om : OrderedMap) : List KeyType :=
  om.kvList.filterMap (fun slot => slot.map KV.Key)

/-- `GetList`: copies of the pairs of the non-nil slots, in slot order. -/
def OrderedMap.GetList (om : OrderedMap) : List KV :=
  om.kvList.filterMap id

/-- One iteration of the loop of `Append`. -/
def OrderedMap.appendStep (overwrite : Bool) (om : OrderedMap) (kv : KV) :
    Option OrderedMap :=
  if !overwrite && om.Exists kv.Key then some om else om.Set kv.Key kv.Value

/-- `Append`: ranges over `newOm.GetList()`, taken once before the loop, and sets
every pair, skipping keys already in the receiver unless `overwrite`. -/
def OrderedMap.Append (om newOm : OrderedMap) (overwrite : Bool) : Option OrderedMap :=
  newOm.GetList.foldlM (OrderedMap.appendStep overwrite) om

/-- `Len`: the number of keys of the index. -/
def OrderedMap.Len (om : OrderedMap) : Nat :=
  om.idxLookup.keys.card

/-- One iteration of the loop of `NewOrderedMap`: `kvList[i].Key` dereferences the
argument pointer, which panics on nil. -/
def OrderedMap.newStep (om : OrderedMap) (p : Option KV) : Option OrderedMap :=
  match p with
  | none => none
  | some kv => om.Set kv.Key kv.Value

/-- `NewOrderedMap(kvList ...*KV)`: sets every argument pair, left to right, on an
empty map. -/
def NewOrderedMap (kvList : List (Option KV)) : Option OrderedMap :=
  kvList.foldlM OrderedMap.newStep OrderedMap.empty

/-- The maps a client can build: a result of `NewOrderedMap`, followed by any
finite number of returning `Set`, `Delete` and `Append` calls (the argument of
`Append` being such a map too). -/
inductive Reachable : OrderedMap → Prop
  | new (kvList : List (Option KV)) (om : OrderedMap) :
      NewOrderedMap kvList = some om → Reachable om
  | set (om om1 : OrderedMap) (key : KeyType) (value : ValueType) :
      Reachable om → om.Set key value = some om1 → Reachable om1
  | delete (om om1 : OrderedMap) (key : KeyType) :
      Reachable om → om.Delete key = some om1 → Reachable om1
  | append (om newOm om1 : OrderedMap) (overwrite : Bool) :
      Reachable om → Reachable newOm → om.Append newOm overwrite = some om1 →
      Reachable om1

/-- Index/sequence consistency: the index sends `k` to `i` exactly when slot `i`
holds a pair whose key is `k`. -/
def OrderedMap.Consistent (om : OrderedMap) : Prop :=
  ∀ (k : KeyType) (i : Nat),
    om.idxLookup.lookup k = some i ↔
      ∃ kv : KV, om.kvList[i]? = some (some kv) ∧ kv.Key = k

/-- The loop of `MarshalJSON` over the slots still to visit, with the buffer written
so far and the flag `first`.  A nil slot is skipped; for a present slot a comma is
written unless `first`, then the encoded key, the byte 58 (a colon) and the encoded
value; an encoder error ends the loop with that error.  The encoders stand for
`json.Marshal` on a key and on a value. -/
def OrderedMap.marshalLoop {ε : Type} (encKey : KeyType → Except ε String)
    (encValue : ValueType → Except ε String) :
    List (Option KV) → String → Bool → Except ε String
  | [], buffer, _ => Except.ok buffer
  | none :: rest, buffer, first => OrderedMap.marshalLoop encKey encValue rest buffer first
  | some kv :: rest, buffer, first =>
    match encKey kv.Key with
    | Except.error err => Except.error err
    | Except.ok jsonKey =>
      match encValue kv.Value with
      | Except.error err => Except.error err
      | Except.ok jsonValue =>
        OrderedMap.marshalLoop encKey encValue rest
          ((if first then buffer else buffer ++ ",") ++ jsonKey ++ ":" ++ jsonValue) false

/-- `MarshalJSON`: an opening brace, the loop over `kvList`, a closing brace; an
encoder error is returned with no bytes. -/
def OrderedMap.MarshalJSON {ε : Type} (om : OrderedMap)
    (encKey : KeyType → Except ε String) (encValue : ValueType → Except ε String) :
    Except ε String :=
  match OrderedMap.marshalLoop encKey encValue om.kvList "\x7b" true with
  | Except.error err => Except.error err
  | Except.ok buffer => Except.ok (buffer ++ "\x7d")

/-- Specification side of serialization: every entry preceded by a comma. -/
def commaEntries : List String → String
  | [] => ""
  | e :: es => "," ++ e ++ commaEntries es

/-- Specification side of serialization: entries separated by single commas, with no
leading and no trailing comma. -/
def joinEntries : List String → String
  | [] => ""
  | e :: es => e ++ commaEntries es

/-- Specification side of serialization: the object text of a list of pairs whose keys
encode to `fk` and whose values encode to `fv`. -/
def objectText (fk : KeyType → String) (fv : ValueType → String) (pairs : List KV) :
    String :=
  "\x7b" ++ joinEntries (pairs.map (fun kv => fk kv.Key ++ ":" ++ fv kv.Value)) ++ "\x7d"

/-- A sample key encoder: the key between double quotes (keys that need no escaping). -/
def sampleEncKey (k : KeyType) : Except String String :=
  Except.ok ("\x22" ++ k ++ "\x22")

/-- A sample value encoder: decimal digits for an integer, `null` for nil, the
literal for a boolean, double quotes around a string that needs no escaping, and an
error for a function value. -/
def sampleEncValue : ValueType → Except String String
  | ValueType.nil => Except.ok "null"
  | ValueType.int n => Except.ok (toString n)
  | ValueType.str s => Except.ok ("\x22" ++ s ++ "\x22")
  | ValueType.bool b => Except.ok (toString b)
  | ValueType.func _ => Except.error "json: unsupported type"

/-- The texts `sampleEncValue` produces, the empty text where it fails. -/
def sampleValueText : ValueType → String
  | ValueType.nil => "null"
  | ValueType.int n => toString n
  | ValueType.str s => "\x22" ++ s ++ "\x22"
  | ValueType.bool b => toString b
  | ValueType.func _ => ""

/-- A map holding a function value, which `sampleEncValue` rejects, after a pair it
accepts. -/
def sampleFuncMap : OrderedMap :=
  { kvList := [some { Key := "x", Value := ValueType.int 1 },
               some { Key := "f", Value := ValueType.func 0 }],
    idxLookup := (Finmap.singleton "x" 0).insert "f" 1 }

/-- A map holding the nil value under the key `n`. -/
def sampleNilMap : OrderedMap :=
  { kvList := [some { Key := "n", Value := ValueType.nil }],
    idxLookup := Finmap.singleton "n" 0 }

/-- The state the scenario `NewOrderedMap((x,1),(y,2))`, `Set(x,3)`, `Delete(y)`,
`Set(z,4)` ends in. -/
def scenarioMap : OrderedMap :=
  { kvList := [some { Key := "x", Value := ValueType.int 3 }, none,
               some { Key := "z", Value := ValueType.int 4 }],
    idxLookup := (Finmap.singleton "x" 0).insert "z" 2 }

/-- Specification side of construction: the keys of a list with every repeated key
removed except its first occurrence. -/
def firstOccurrences : List KeyType → List KeyType
  | [] => []
  | k :: ks => k :: (firstOccurrences ks).filter (fun a => decide (a ≠ k))

/-- Specification side of construction: the value of the last pair of `ps` whose key
is `k`, if there is one. -/
def lastValue (ps : List KV) (k : KeyType) : Option ValueType :=
  (ps.reverse.find? (fun kv => decide (kv.Key = k))).map KV.Value

/-- Arguments of a sample construction: the pairs `(x, 1)` and `(y, 2)`. -/
def sampleArgs : List (Option KV) :=
  [some { Key := "x", Value := ValueType.int 1 }, some { Key := "y", Value := ValueType.int 2 }]

/-- The map `NewOrderedMap` returns on `sampleArgs`. -/
def sampleMap : OrderedMap :=
  { kvList := [some { Key := "x", Value := ValueType.int 1 },
               some { Key := "y", Value := ValueType.int 2 }],
    idxLookup := (Finmap.singleton "x" 0).insert "y" 1 }

/-- The map `sampleMap` after `Delete("y")`: slot 1 is a tombstone. -/
def sampleDeleted : OrderedMap :=
  { kvList := [some { Key := "x", Value := ValueType.int 1 }, none],
    idxLookup := Finmap.singleton "x" 0 }

/-! ## Index/sequence consistency is preserved -/

theorem consistent_empty : OrderedMap.empty.Consistent := by
  intro k i
  simp [OrderedMap.empty]

theorem consistent_lt {om : OrderedMap} (h : om.Consistent) {k : KeyType} {i : Nat}
    (hk : om.idxLookup.lookup k = some i) : i < om.kvList.length := by
  obtain ⟨kv, hkv, -⟩ := (h k i).1 hk
  exact (List.getElem?_eq_some.1 hkv).1

theorem set_of_absent (om : OrderedMap) (key : KeyType) (value : ValueType)
    (hk : om.idxLookup.lookup key = none) :
    om.Set key value =
      some { kvList := om.kvList ++ [some { Key := key, Value := value }],
             idxLookup := om.idxLookup.insert key om.kvList.length } := by
  simp [OrderedMap.Set, hk]

theorem set_of_live {om : OrderedMap} (h : om.Consistent) (key : KeyType)
    (value : ValueType) {idx : Nat} (hk : om.idxLookup.lookup key = some idx) :
    om.Set key value =
      some { kvList := om.kvList.set idx (some { Key := key, Value := value }),
             idxLookup := om.idxLookup } := by
  obtain ⟨kv, hkv, hkey⟩ := (h key idx).1 hk
  simp [OrderedMap.Set, hk, hkv, hkey]

theorem delete_of_absent (om : OrderedMap) (key : KeyType)
    (hk : om.idxLookup.lookup key = none) : om.Delete key = some om := by
  simp [OrderedMap.Delete, hk]

theorem delete_of_live {om : OrderedMap} (h : om.Consistent) (key : KeyType)
    {idx : Nat} (hk : om.idxLookup.lookup key = some idx) :
    om.Delete key =
      some { kvList := om.kvList.set idx none, idxLookup := om.idxLookup.erase key } := by
  simp [OrderedMap.Delete, hk, consistent_lt h hk]

theorem get_of_absent (om : OrderedMap) (key : KeyType)
    (hk : om.idxLookup.lookup key = none) : om.Get key = some ValueType.nil := by
  simp [OrderedMap.Get, hk]

theorem get_of_slot (om : OrderedMap) (key : KeyType) {idx : Nat} {kv : KV}
    (hk : om.idxLookup.lookup key = some idx) (hs : om.kvList[idx]? = some (some kv)) :
    om.Get key = some kv.Value := by
  simp [OrderedMap.Get, hk, hs]

theorem consistent_set_absent {om : OrderedMap} (h : om.Consistent) (key : KeyType)
    (value : ValueType) (hk : om.idxLookup.lookup key = none) :
    OrderedMap.Consistent
      { kvList := om.kvList ++ [some { Key := key, Value := value }],
        idxLookup := om.idxLookup.insert key om.kvList.length } := by
  intro k i
  show (om.idxLookup.insert key om.kvList.length).lookup k = some i ↔
    ∃ kv : KV, (om.kvList ++ [some { Key := key, Value := value }])[i]? = some (some kv) ∧
      kv.Key = k
  by_cases hkk : k = key
  · subst hkk
    rw [Finmap.lookup_insert]
    constructor
    · intro hi
      have hi2 : om.kvList.length = i := Option.some.inj hi
      subst hi2
      exact ⟨{ Key := k, Value := value }, by simp, rfl⟩
    · rintro ⟨kv, hkv, hkey⟩
      rcases Nat.lt_or_ge i om.kvList.length with hlt | hge
      · rw [List.getElem?_append_left hlt] at hkv
        have := (h k i).2 ⟨kv, hkv, hkey⟩
        rw [hk] at this
        exact absurd this (by simp)
      · rcases Nat.eq_or_lt_of_le hge with heq | hgt
        · rw [heq]
        · have : (om.kvList ++ [some { Key := k, Value := value }])[i]? = none := by
            apply List.getElem?_eq_none
            simp
            omega
          rw [this] at hkv
          exact absurd hkv (by simp)
  · rw [Finmap.lookup_insert_of_ne _ hkk, h k i]
    constructor
    · rintro ⟨kv, hkv, hkey⟩
      have hlt : i < om.kvList.length := (List.getElem?_eq_some.1 hkv).1
      exact ⟨kv, by rw [List.getElem?_append_left hlt]; exact hkv, hkey⟩
    · rintro ⟨kv, hkv, hkey⟩
      rcases Nat.lt_or_ge i om.kvList.length with hlt | hge
      · rw [List.getElem?_append_left hlt] at hkv
        exact ⟨kv, hkv, hkey⟩
      · rw [List.getElem?_append_right hge] at hkv
        rcases Nat.eq_zero_or_pos (i - om.kvList.length) with hz | hp
        · rw [hz] at hkv
          simp at hkv
          rw [← hkv] at hkey
          exact absurd hkey.symm hkk
        · have : ([some ({ Key := key, Value := value } : KV)])[i - om.kvList.length]? = none := by
            apply List.getElem?_eq_none
            simp
            omega
          rw [this] at hkv
          exact absurd hkv (by simp)

theorem consistent_set_live {om : OrderedMap} (h : om.Consistent) (key : KeyType)
    (value : ValueType) {idx : Nat} (hk : om.idxLookup.lookup key = some idx) :
    OrderedMap.Consistent
      { kvList := om.kvList.set idx (some { Key := key, Value := value }),
        idxLookup := om.idxLookup } := by
  intro k i
  show om.idxLookup.lookup k = some i ↔
    ∃ kv : KV, (om.kvList.set idx (some { Key := key, Value := value }))[i]? =
      some (some kv) ∧ kv.Key = k
  have hlt := consistent_lt h hk
  rw [h k i]
  by_cases hi : idx = i
  · subst hi
    rw [List.getElem?_set_self hlt]
    obtain ⟨kv0, hkv0, hkey0⟩ := (h key idx).1 hk
    constructor
    · rintro ⟨kv, hkv, hkey⟩
      rw [hkv0] at hkv
      have : kv0 = kv := by simpa using hkv
      subst this
      exact ⟨{ Key := key, Value := value }, rfl, hkey0.symm.trans hkey⟩
    · rintro ⟨kv, hkv, hkey⟩
      have : ({ Key := key, Value := value } : KV) = kv := by simpa using hkv
      subst this
      exact ⟨kv0, hkv0, hkey0.trans hkey⟩
  · rw [List.getElem?_set_ne hi]

theorem consistent_delete_live {om : OrderedMap} (h : om.Consistent) (key : KeyType)
    {idx : Nat} (hk : om.idxLookup.lookup key = some idx) :
    OrderedMap.Consistent
      { kvList := om.kvList.set idx none, idxLookup := om.idxLookup.erase key } := by
  intro k i
  show (om.idxLookup.erase key).lookup k = some i ↔
    ∃ kv : KV, (om.kvList.set idx none)[i]? = some (some kv) ∧ kv.Key = k
  have hlt := consistent_lt h hk
  by_cases hkk : k = key
  · subst hkk
    rw [Finmap.lookup_erase]
    constructor
    · intro hn
      exact absurd hn (by simp)
    · rintro ⟨kv, hkv, hkey⟩
      exfalso
      by_cases hi : idx = i
      · subst hi
        rw [List.getElem?_set_self hlt] at hkv
        simp at hkv
      · rw [List.getElem?_set_ne hi] at hkv
        have := (h k i).2 ⟨kv, hkv, hkey⟩
        rw [hk] at this
        exact hi (Option.some.inj this)
  · rw [Finmap.lookup_erase_ne hkk, h k i]
    by_cases hi : idx = i
    · subst hi
      rw [List.getElem?_set_self hlt]
      obtain ⟨kv0, hkv0, hkey0⟩ := (h key idx).1 hk
      constructor
      · rintro ⟨kv, hkv, hkey⟩
        rw [hkv0] at hkv
        have : kv0 = kv := by simpa using hkv
        subst this
        exact absurd (hkey.symm.trans hkey0) hkk
      · rintro ⟨kv, hkv, -⟩
        simp at hkv
    · rw [List.getElem?_set_ne hi]

theorem set_returns {om : OrderedMap} (h : om.Consistent) (key : KeyType)
    (value : ValueType) : ∃ om1, om.Set key value = some om1 ∧ om1.Consistent := by
  cases hk : om.idxLookup.lookup key with
  | none => exact ⟨_, set_of_absent om key value hk, consistent_set_absent h key value hk⟩
  | some idx => exact ⟨_, set_of_live h key value hk, consistent_set_live h key value hk⟩

theorem consistent_set {om om1 : OrderedMap} (h : om.Consistent) {key : KeyType}
    {value : ValueType} (hs : om.Set key value = some om1) : om1.Consistent := by
  obtain ⟨om2, h2, hc⟩ := set_returns h key value
  rw [hs] at h2
  rw [Option.some.inj h2]
  exact hc

theorem delete_returns {om : OrderedMap} (h : om.Consistent) (key : KeyType) :
    ∃ om1, om.Delete key = some om1 ∧ om1.Consistent := by
  cases hk : om.idxLookup.lookup key with
  | none => exact ⟨om, delete_of_absent om key hk, h⟩
  | some idx => exact ⟨_, delete_of_live h key hk, consistent_delete_live h key hk⟩

theorem consistent_delete {om om1 : OrderedMap} (h : om.Consistent) {key : KeyType}
    (hs : om.Delete key = some om1) : om1.Consistent := by
  obtain ⟨om2, h2, hc⟩ := delete_returns h key
  rw [hs] at h2
  rw [Option.some.inj h2]
  exact hc

theorem appendStep_returns {om : OrderedMap} (h : om.Consistent) (overwrite : Bool)
    (kv : KV) : ∃ om1, OrderedMap.appendStep overwrite om kv = some om1 ∧ om1.Consistent := by
  unfold OrderedMap.appendStep
  split
  · exact ⟨om, rfl, h⟩
  · exact set_returns h kv.Key kv.Value

theorem append_returns (newOm : OrderedMap) (overwrite : Bool) {om : OrderedMap}
    (h : om.Consistent) :
    ∃ om1, om.Append newOm overwrite = some om1 ∧ om1.Consistent := by
  unfold OrderedMap.Append
  generalize newOm.GetList = l
  induction l generalizing om with
  | nil => exact ⟨om, rfl, h⟩
  | cons kv l ih =>
    obtain ⟨om1, h1, hc1⟩ := appendStep_returns h overwrite kv
    obtain ⟨om2, h2, hc2⟩ := ih hc1
    exact ⟨om2, by simp [List.foldlM_cons, h1, h2], hc2⟩

theorem consistent_append {om newOm om1 : OrderedMap} {overwrite : Bool}
    (h : om.Consistent) (hs : om.Append newOm overwrite = some om1) : om1.Consistent := by
  obtain ⟨om2, h2, hc⟩ := append_returns newOm overwrite h
  rw [hs] at h2
  rw [Option.some.inj h2]
  exact hc

theorem consistent_new_aux (kvList : List (Option KV)) {om om1 : OrderedMap}
    (h : om.Consistent) (hs : kvList.foldlM OrderedMap.newStep om = some om1) :
    om1.Consistent := by
  induction kvList generalizing om with
  | nil =>
    simp at hs
    rw [← hs]
    exact h
  | cons p l ih =>
    cases p with
    | none => simp [List.foldlM_cons, OrderedMap.newStep] at hs
    | some kv =>
      obtain ⟨om2, h2, hc2⟩ := set_returns h kv.Key kv.Value
      simp [List.foldlM_cons, OrderedMap.newStep, h2] at hs
      exact ih hc2 hs

theorem consistent_new {kvList : List (Option KV)} {om : OrderedMap}
    (hs : NewOrderedMap kvList = some om) : om.Consistent :=
  consistent_new_aux kvList consistent_empty hs

theorem reachable_consistent {om : OrderedMap} (h : Reachable om) : om.Consistent := by
  induction h with
  | new kvList om hs => exact consistent_new hs
  | set om om1 key value _ hs ih => exact consistent_set ih hs
  | delete om om1 key _ hs ih => exact consistent_delete ih hs
  | append om newOm om1 overwrite _ _ hs ih _ => exact consistent_append ih hs

/-! ## Enumeration and length -/

theorem mem_getKeys (om : OrderedMap) (k : KeyType) :
    k ∈ om.GetKeys ↔ ∃ (i : Nat) (kv : KV), om.kvList[i]? = some (some kv) ∧ kv.Key = k := by
  unfold OrderedMap.GetKeys
  rw [List.mem_filterMap]
  constructor
  · rintro ⟨slot, hmem, hslot⟩
    cases slot with
    | none => simp at hslot
    | some kv =>
      obtain ⟨i, hi⟩ := List.mem_iff_getElem?.1 hmem
      exact ⟨i, kv, hi, by simpa using hslot⟩
  · rintro ⟨i, kv, hi, hkey⟩
    exact ⟨some kv, List.mem_iff_getElem?.2 ⟨i, hi⟩, by simp [hkey]⟩

theorem exists_iff_mem_getKeys {om : OrderedMap} (h : om.Consistent) (k : KeyType) :
    om.Exists k = true ↔ k ∈ om.GetKeys := by
  rw [mem_getKeys]
  unfold OrderedMap.Exists
  rw [Option.isSome_iff_exists]
  constructor
  · rintro ⟨i, hi⟩
    exact ⟨i, (h k i).1 hi⟩
  · rintro ⟨i, hkv⟩
    exact ⟨i, (h k i).2 hkv⟩

theorem getKeys_eq_map_getList (om : OrderedMap) : om.GetKeys = om.GetList.map KV.Key := by
  unfold OrderedMap.GetKeys OrderedMap.GetList
  rw [List.map_filterMap]
  rfl

theorem getKeys_nodup {om : OrderedMap} (h : om.Consistent) : om.GetKeys.Nodup := by
  unfold OrderedMap.GetKeys List.Nodup
  rw [List.pairwise_filterMap, List.pairwise_iff_getElem]
  intro i j hi hj hij a ha b hb hab
  cases hsi : om.kvList[i] with
  | none => rw [hsi] at ha; simp at ha
  | some x =>
    cases hsj : om.kvList[j] with
    | none => rw [hsj] at hb; simp at hb
    | some y =>
      rw [hsi] at ha
      rw [hsj] at hb
      simp at ha hb
      have h1 : om.idxLookup.lookup a = some i :=
        (h a i).2 ⟨x, by rw [List.getElem?_eq_getElem hi, hsi], ha⟩
      have h2 : om.idxLookup.lookup a = some j :=
        (h a j).2 ⟨y, by rw [List.getElem?_eq_getElem hj, hsj], by rw [hb, hab]⟩
      rw [h1] at h2
      have := Option.some.inj h2
      omega

theorem len_eq_length_getKeys {om : OrderedMap} (h : om.Consistent) :
    om.Len = om.GetKeys.length := by
  have hkeys : om.idxLookup.keys = om.GetKeys.toFinset := by
    ext k
    rw [Finmap.mem_keys, List.mem_toFinset, ← exists_iff_mem_getKeys h, ← Finmap.lookup_isSome]
    rfl
  unfold OrderedMap.Len
  rw [hkeys, List.toFinset_card_of_nodup (getKeys_nodup h)]

theorem length_getList_eq_count (l : List (Option KV)) :
    (l.filterMap id).length = (l.filter Option.isSome).length := by
  induction l with
  | nil => rfl
  | cons a l ih =>
    cases a with
    | none => simpa using ih
    | some kv => simpa using ih

/-! ## The slot of a live key splits the sequence -/

theorem live_split {om : OrderedMap} (h : om.Consistent) {k : KeyType} {i : Nat}
    (hk : om.idxLookup.lookup k = some i) :
    ∃ (l1 : List (Option KV)) (old : ValueType) (l2 : List (Option KV)),
      om.kvList = l1 ++ some { Key := k, Value := old } :: l2 ∧ l1.length = i ∧
      (∀ kv : KV, some kv ∈ l1 → kv.Key ≠ k) ∧ (∀ kv : KV, some kv ∈ l2 → kv.Key ≠ k) := by
  obtain ⟨kv, hkv, hkey⟩ := (h k i).1 hk
  obtain ⟨hlt, hget⟩ := List.getElem?_eq_some.1 hkv
  have hsplit : om.kvList = om.kvList.take i ++ some kv :: om.kvList.drop (i + 1) := by
    conv_lhs => rw [← List.take_append_drop i om.kvList]
    rw [List.drop_eq_getElem_cons hlt, hget]
  have hlen : (om.kvList.take i).length = i := by
    rw [List.length_take]
    omega
  have hkv2 : kv = { Key := k, Value := kv.Value } := by
    cases kv
    simp at hkey
    simp [hkey]
  refine ⟨om.kvList.take i, kv.Value, om.kvList.drop (i + 1), ?_, hlen, ?_, ?_⟩
  · rw [← hkv2]
    exact hsplit
  · intro kv1 hmem hkey1
    obtain ⟨j, hj⟩ := List.mem_iff_getElem?.1 hmem
    have hjlt : j < (om.kvList.take i).length := (List.getElem?_eq_some.1 hj).1
    have hj2 : om.kvList[j]? = some (some kv1) := by
      rw [hsplit, List.getElem?_append_left hjlt]
      exact hj
    have := (h k j).2 ⟨kv1, hj2, hkey1⟩
    rw [hk] at this
    have := Option.some.inj this
    omega
  · intro kv1 hmem hkey1
    obtain ⟨j, hj⟩ := List.mem_iff_getElem?.1 hmem
    have hj2 : om.kvList[i + 1 + j]? = some (some kv1) := by
      rw [← hj, List.getElem?_drop]
    have := (h k (i + 1 + j)).2 ⟨kv1, hj2, hkey1⟩
    rw [hk] at this
    have := Option.some.inj this
    omega

theorem set_middle (l1 l2 : List (Option KV)) (a b : Option KV) :
    (l1 ++ a :: l2).set l1.length b = l1 ++ b :: l2 := by
  induction l1 with
  | nil => rfl
  | cons x l1 ih => simp [ih]

theorem filterMap_id_of_keys_ne (l : List (Option KV)) (k : KeyType)
    (h : ∀ kv : KV, some kv ∈ l → kv.Key ≠ k) :
    ∀ kv ∈ l.filterMap id, kv.Key ≠ k := by
  intro kv hmem
  rw [List.mem_filterMap] at hmem
  obtain ⟨slot, hslot, heq⟩ := hmem
  simp at heq
  rw [heq] at hslot
  exact h kv hslot

theorem getList_split {om : OrderedMap} (h : om.Consistent) {k : KeyType} {i : Nat}
    (hk : om.idxLookup.lookup k = some i) :
    ∃ (g1 : List KV) (old : ValueType) (g2 : List KV),
      om.GetList = g1 ++ { Key := k, Value := old } :: g2 ∧
      (∀ kv ∈ g1, kv.Key ≠ k) ∧ (∀ kv ∈ g2, kv.Key ≠ k) ∧
      ∀ b : Option KV, (om.kvList.set i b).filterMap id = g1 ++ b.toList ++ g2 := by
  obtain ⟨l1, old, l2, hl, hlen, h1, h2⟩ := live_split h hk
  refine ⟨l1.filterMap id, old, l2.filterMap id, ?_, filterMap_id_of_keys_ne l1 k h1,
    filterMap_id_of_keys_ne l2 k h2, ?_⟩
  · unfold OrderedMap.GetList
    rw [hl, List.filterMap_append]
    rfl
  · intro b
    rw [hl, ← hlen, set_middle, List.filterMap_append]
    cases b with
    | none => simp
    | some kv => simp

theorem map_replace_of_keys_ne (g : List KV) (k : KeyType) (v : ValueType)
    (h : ∀ kv ∈ g, kv.Key ≠ k) :
    g.map (fun kv => if kv.Key = k then { Key := k, Value := v } else kv) = g := by
  conv_rhs => rw [← List.map_id g]
  apply List.map_congr_left
  intro kv hkv
  simp [h kv hkv]

theorem filter_of_keys_ne (g : List KV) (k : KeyType) (h : ∀ kv ∈ g, kv.Key ≠ k) :
    g.filter (fun kv => decide (kv.Key ≠ k)) = g := by
  rw [List.filter_eq_self]
  intro kv hkv
  simp [h kv hkv]

theorem lookup_of_exists {om : OrderedMap} {k : KeyType} (hk : om.Exists k = true) :
    ∃ i : Nat, om.idxLookup.lookup k = some i :=
  Option.isSome_iff_exists.1 hk

theorem lookup_of_not_exists {om : OrderedMap} {k : KeyType} (hk : om.Exists k = false) :
    om.idxLookup.lookup k = none := by
  unfold OrderedMap.Exists at hk
  cases hl : om.idxLookup.lookup k with
  | none => rfl
  | some i => rw [hl] at hk; simp at hk

/-! ## Reading a key after a write to another key -/

theorem get_returns {om : OrderedMap} (h : om.Consistent) (k : KeyType) :
    ∃ r : ValueType, om.Get k = some r := by
  cases hk : om.idxLookup.lookup k with
  | none => exact ⟨ValueType.nil, get_of_absent om k hk⟩
  | some i =>
    obtain ⟨kv, hkv, -⟩ := (h k i).1 hk
    exact ⟨kv.Value, get_of_slot om k hk hkv⟩

theorem get_frame {om om1 : OrderedMap} (h : om.Consistent) (k : KeyType)
    (hidx : om1.idxLookup.lookup k = om.idxLookup.lookup k)
    (hslot : ∀ (j : Nat) (kv : KV), om.kvList[j]? = some (some kv) → kv.Key = k →
      om1.kvList[j]? = some (some kv)) :
    om1.Get k = om.Get k := by
  cases hk : om.idxLookup.lookup k with
  | none =>
    rw [get_of_absent om k hk, get_of_absent om1 k (hidx.trans hk)]
  | some i =>
    obtain ⟨kv, hkv, hkey⟩ := (h k i).1 hk
    rw [get_of_slot om k hk hkv, get_of_slot om1 k (hidx.trans hk) (hslot i kv hkv hkey)]

theorem key_of_position {om : OrderedMap} (h : om.Consistent) {k k1 : KeyType} {i : Nat}
    (hk : om.idxLookup.lookup k = some i) (hk1 : om.idxLookup.lookup k1 = some i) :
    k1 = k := by
  obtain ⟨kv, hkv, hkey⟩ := (h k i).1 hk
  obtain ⟨kv1, hkv1, hkey1⟩ := (h k1 i).1 hk1
  rw [hkv] at hkv1
  have : kv = kv1 := by simpa using hkv1
  rw [← hkey1, ← this, hkey]

theorem get_set_other {om om1 : OrderedMap} (h : om.Consistent) {k : KeyType}
    {v : ValueType} (hs : om.Set k v = some om1) (k1 : KeyType) (hne : k1 ≠ k) :
    om1.Get k1 = om.Get k1 := by
  cases hk : om.idxLookup.lookup k with
  | none =>
    rw [set_of_absent om k v hk] at hs
    rw [← Option.some.inj hs]
    apply get_frame h k1
    · exact Finmap.lookup_insert_of_ne _ hne
    · intro j kv hkv _
      have hlt : j < om.kvList.length := (List.getElem?_eq_some.1 hkv).1
      show (om.kvList ++ [some { Key := k, Value := v }])[j]? = some (some kv)
      rw [List.getElem?_append_left hlt]
      exact hkv
  | some i =>
    rw [set_of_live h k v hk] at hs
    rw [← Option.some.inj hs]
    apply get_frame h k1
    · rfl
    · intro j kv hkv hkey
      have hij : i ≠ j := by
        intro hij
        have hk1 := (h k1 j).2 ⟨kv, hkv, hkey⟩
        rw [← hij] at hk1
        exact hne (key_of_position h hk hk1)
      show (om.kvList.set i (some { Key := k, Value := v }))[j]? = some (some kv)
      rw [List.getElem?_set_ne hij]
      exact hkv

theorem get_delete_other {om om1 : OrderedMap} (h : om.Consistent) {k : KeyType}
    (hs : om.Delete k = some om1) (k1 : KeyType) (hne : k1 ≠ k) :
    om1.Get k1 = om.Get k1 := by
  cases hk : om.idxLookup.lookup k with
  | none =>
    rw [delete_of_absent om k hk] at hs
    rw [← Option.some.inj hs]
  | some i =>
    rw [delete_of_live h k hk] at hs
    rw [← Option.some.inj hs]
    apply get_frame h k1
    · exact Finmap.lookup_erase_ne hne
    · intro j kv hkv hkey
      have hij : i ≠ j := by
        intro hij
        have hk1 := (h k1 j).2 ⟨kv, hkv, hkey⟩
        rw [← hij] at hk1
        exact hne (key_of_position h hk hk1)
      show (om.kvList.set i none)[j]? = some (some kv)
      rw [List.getElem?_set_ne hij]
      exact hkv

theorem get_set_self {om om1 : OrderedMap} (h : om.Consistent) {k : KeyType}
    {v : ValueType} (hs : om.Set k v = some om1) : om1.Get k = some v := by
  cases hk : om.idxLookup.lookup k with
  | none =>
    rw [set_of_absent om k v hk] at hs
    rw [← Option.some.inj hs]
    have hl : (om.idxLookup.insert k om.kvList.length).lookup k = some om.kvList.length :=
      Finmap.lookup_insert _
    have hslot : (om.kvList ++ [some ({ Key := k, Value := v } : KV)])[om.kvList.length]? =
        some (some { Key := k, Value := v }) := by simp
    exact get_of_slot
      { kvList := om.kvList ++ [some { Key := k, Value := v }],
        idxLookup := om.idxLookup.insert k om.kvList.length } k hl hslot
  | some i =>
    rw [set_of_live h k v hk] at hs
    rw [← Option.some.inj hs]
    have hlt := consistent_lt h hk
    have hslot : (om.kvList.set i (some ({ Key := k, Value := v } : KV)))[i]? =
        some (some { Key := k, Value := v }) := List.getElem?_set_self hlt
    exact get_of_slot
      { kvList := om.kvList.set i (some { Key := k, Value := v }),
        idxLookup := om.idxLookup } k hk hslot

theorem len_eq_length_getList {om : OrderedMap} (h : om.Consistent) :
    om.Len = om.GetList.length := by
  rw [len_eq_length_getKeys h, getKeys_eq_map_getList, List.length_map]

theorem delete_live_effect {om : OrderedMap} (h : om.Consistent) {k : KeyType} {i : Nat}
    (hk : om.idxLookup.lookup k = some i) :
    ∃ (om1 : OrderedMap) (g1 : List KV) (old : ValueType) (g2 : List KV),
      om.Delete k = some om1 ∧ om1.Consistent ∧
      om1.kvList = om.kvList.set i none ∧ om1.idxLookup.lookup k = none ∧
      om.GetList = g1 ++ { Key := k, Value := old } :: g2 ∧ om1.GetList = g1 ++ g2 ∧
      (∀ kv ∈ g1 ++ g2, kv.Key ≠ k) := by
  obtain ⟨g1, old, g2, hg, hg1, hg2, hset⟩ := getList_split h hk
  refine ⟨_, g1, old, g2, delete_of_live h k hk, consistent_delete_live h k hk, rfl,
    Finmap.lookup_erase k om.idxLookup, hg, ?_, ?_⟩
  · unfold OrderedMap.GetList
    rw [hset]
    simp
  · intro kv hkv
    rcases List.mem_append.1 hkv with h1 | h2
    · exact hg1 kv h1
    · exact hg2 kv h2

theorem filter_split (g1 g2 : List KV) (k : KeyType) (old : ValueType)
    (h : ∀ kv ∈ g1 ++ g2, kv.Key ≠ k) :
    (g1 ++ { Key := k, Value := old } :: g2).filter (fun kv => decide (kv.Key ≠ k)) =
      g1 ++ g2 := by
  have h1 : ∀ kv ∈ g1, kv.Key ≠ k := fun kv hkv => h kv (List.mem_append_left g2 hkv)
  have h2 : ∀ kv ∈ g2, kv.Key ≠ k := fun kv hkv => h kv (List.mem_append_right g1 hkv)
  rw [List.filter_append, List.filter_cons, filter_of_keys_ne g1 k h1,
    filter_of_keys_ne g2 k h2]
  simp

/-! ## Setting a list of pairs, left to right -/

theorem getKeys_set {om om1 : OrderedMap} (h : om.Consistent) {k : KeyType}
    {v : ValueType} (hs : om.Set k v = some om1) :
    om1.GetKeys = if k ∈ om.GetKeys then om.GetKeys else om.GetKeys ++ [k] := by
  cases hk : om.idxLookup.lookup k with
  | none =>
    have hnot : k ∉ om.GetKeys := by
      rw [← exists_iff_mem_getKeys h]
      simp [OrderedMap.Exists, hk]
    rw [set_of_absent om k v hk] at hs
    rw [← Option.some.inj hs, if_neg hnot]
    unfold OrderedMap.GetKeys
    simp [List.filterMap_append]
  | some i =>
    have hmem : k ∈ om.GetKeys := by
      rw [← exists_iff_mem_getKeys h]
      simp [OrderedMap.Exists, hk]
    obtain ⟨g1, old, g2, hg, -, -, hset⟩ := getList_split h hk
    rw [set_of_live h k v hk] at hs
    rw [← Option.some.inj hs, if_pos hmem, getKeys_eq_map_getList, getKeys_eq_map_getList, hg]
    unfold OrderedMap.GetList
    rw [hset]
    simp

theorem lastValue_cons (p : KV) (ps : List KV) (k : KeyType) :
    lastValue (p :: ps) k =
      match lastValue ps k with
      | some v => some v
      | none => if p.Key = k then some p.Value else none := by
  unfold lastValue
  rw [List.reverse_cons, List.find?_append]
  cases hf : ps.reverse.find? (fun kv => decide (kv.Key = k)) with
  | some kv => simp
  | none =>
    by_cases hp : p.Key = k
    · simp [hp]
    · simp [hp]

theorem lastValue_of_mem (ps : List KV) (k : KeyType) (hk : k ∈ ps.map KV.Key) :
    ∃ v : ValueType, lastValue ps k = some v := by
  obtain ⟨kv, hmem, hkey⟩ := List.mem_map.1 hk
  have hsome : (ps.reverse.find? (fun kv => decide (kv.Key = k))).isSome := by
    rw [List.find?_isSome]
    exact ⟨kv, List.mem_reverse.2 hmem, by simp [hkey]⟩
  obtain ⟨x, hx⟩ := Option.isSome_iff_exists.1 hsome
  exact ⟨x.Value, by simp [lastValue, hx]⟩

theorem filter_not_mem_of_mem (K X : List KeyType) (k : KeyType) (hk : k ∈ K) :
    (X.filter (fun a => decide (a ≠ k))).filter (fun a => decide (a ∉ K)) =
      X.filter (fun a => decide (a ∉ K)) := by
  rw [List.filter_filter]
  apply List.filter_congr
  intro a _
  by_cases ha : a ∈ K
  · simp [ha]
  · have : a ≠ k := fun hak => ha (hak ▸ hk)
    simp [ha, this]

theorem filter_not_mem_append (K X : List KeyType) (k : KeyType) :
    X.filter (fun a => decide (a ∉ K ++ [k])) =
      (X.filter (fun a => decide (a ≠ k))).filter (fun a => decide (a ∉ K)) := by
  rw [List.filter_filter]
  apply List.filter_congr
  intro a _
  by_cases ha : a ∈ K <;> by_cases hak : a = k <;> simp [ha, hak]

theorem set_list_effect (ps : List KV) {om : OrderedMap} (h : om.Consistent) :
    ∃ om1 : OrderedMap, (ps.map some).foldlM OrderedMap.newStep om = some om1 ∧
      om1.Consistent ∧
      om1.GetKeys = om.GetKeys ++
        (firstOccurrences (ps.map KV.Key)).filter (fun a => decide (a ∉ om.GetKeys)) ∧
      ∀ k : KeyType, om1.Get k =
        match lastValue ps k with
        | some v => some v
        | none => om.Get k := by
  induction ps generalizing om with
  | nil => exact ⟨om, rfl, h, by simp [firstOccurrences], fun k => by simp [lastValue]⟩
  | cons p ps ih =>
    obtain ⟨om2, hs, hc2⟩ := set_returns h p.Key p.Value
    obtain ⟨om1, hf, hc1, hkeys, hget⟩ := ih hc2
    refine ⟨om1, ?_, hc1, ?_, ?_⟩
    · simp only [List.map_cons, List.foldlM_cons, OrderedMap.newStep, hs]
      exact hf
    · rw [hkeys, getKeys_set h hs]
      simp only [List.map_cons, firstOccurrences]
      by_cases hmem : p.Key ∈ om.GetKeys
      · rw [if_pos hmem, List.filter_cons]
        simp only [hmem, not_true_eq_false, decide_False, Bool.false_eq_true, if_false]
        rw [filter_not_mem_of_mem _ _ _ hmem]
      · rw [if_neg hmem, List.filter_cons]
        simp only [hmem, not_false_eq_true, decide_True, if_true]
        rw [filter_not_mem_append, List.append_assoc]
        rfl
    · intro k
      rw [hget k, lastValue_cons]
      cases hl : lastValue ps k with
      | some v => rfl
      | none =>
        by_cases hp : p.Key = k
        · subst hp
          simp only [if_true]
          exact get_set_self h hs
        · simp only [hp, if_false]
          exact get_set_other h hs k (fun hk => hp hk.symm)

/-! ## Appending a list of pairs -/

theorem getList_set_absent {om om1 : OrderedMap} {k : KeyType} {v : ValueType}
    (hk : om.idxLookup.lookup k = none) (hs : om.Set k v = some om1) :
    om1.GetList = om.GetList ++ [{ Key := k, Value := v }] := by
  rw [set_of_absent om k v hk] at hs
  rw [← Option.some.inj hs]
  unfold OrderedMap.GetList
  simp [List.filterMap_append]

theorem mem_getList (om : OrderedMap) (kv : KV) :
    kv ∈ om.GetList ↔ ∃ i : Nat, om.kvList[i]? = some (some kv) := by
  unfold OrderedMap.GetList
  rw [List.mem_filterMap]
  constructor
  · rintro ⟨slot, hmem, hslot⟩
    simp at hslot
    rw [hslot] at hmem
    exact List.mem_iff_getElem?.1 hmem
  · rintro ⟨i, hi⟩
    exact ⟨some kv, List.mem_iff_getElem?.2 ⟨i, hi⟩, rfl⟩

theorem get_of_mem_getList {om : OrderedMap} (h : om.Consistent) {kv : KV}
    (hkv : kv ∈ om.GetList) : om.Get kv.Key = some kv.Value := by
  obtain ⟨i, hi⟩ := (mem_getList om kv).1 hkv
  exact get_of_slot om kv.Key ((h kv.Key i).2 ⟨kv, hi, rfl⟩) hi

theorem mem_getList_of_get {om : OrderedMap} (h : om.Consistent) {k : KeyType}
    {v : ValueType} (hk : k ∈ om.GetKeys) (hg : om.Get k = some v) :
    ({ Key := k, Value := v } : KV) ∈ om.GetList := by
  obtain ⟨i, kv, hi, hkey⟩ := (mem_getKeys om k).1 hk
  have hl : om.idxLookup.lookup k = some i := (h k i).2 ⟨kv, hi, hkey⟩
  rw [get_of_slot om k hl hi] at hg
  have hkv : kv = { Key := k, Value := v } := by
    cases kv
    simp at hkey hg
    simp [hkey, hg]
  rw [← hkv, mem_getList]
  exact ⟨i, hi⟩

theorem appendStep_skip {om : OrderedMap} {kv : KV} (hk : kv.Key ∈ om.GetKeys)
    (h : om.Consistent) : OrderedMap.appendStep false om kv = some om := by
  have : om.Exists kv.Key = true := (exists_iff_mem_getKeys h kv.Key).2 hk
  simp [OrderedMap.appendStep, this]

theorem appendStep_set {om : OrderedMap} {kv : KV} (hk : kv.Key ∉ om.GetKeys)
    (h : om.Consistent) (overwrite : Bool) :
    OrderedMap.appendStep overwrite om kv = om.Set kv.Key kv.Value := by
  have : om.Exists kv.Key = false := by
    cases he : om.Exists kv.Key with
    | false => rfl
    | true => exact absurd ((exists_iff_mem_getKeys h kv.Key).1 he) hk
  simp [OrderedMap.appendStep, this]

theorem append_keep_effect (ps : List KV) (hnd : (ps.map KV.Key).Nodup) {om : OrderedMap}
    (h : om.Consistent) :
    ∃ om1 : OrderedMap, ps.foldlM (OrderedMap.appendStep false) om = some om1 ∧
      om1.Consistent ∧
      om1.GetList = om.GetList ++ ps.filter (fun kv => decide (kv.Key ∉ om.GetKeys)) := by
  induction ps generalizing om with
  | nil => exact ⟨om, rfl, h, by simp⟩
  | cons p ps ih =>
    rw [List.map_cons, List.nodup_cons] at hnd
    by_cases hmem : p.Key ∈ om.GetKeys
    · obtain ⟨om1, hf, hc1, hl⟩ := ih hnd.2 h
      refine ⟨om1, ?_, hc1, ?_⟩
      · simp only [List.foldlM_cons, appendStep_skip hmem h]
        exact hf
      · rw [hl, List.filter_cons]
        simp [hmem]
    · obtain ⟨om2, hs, hc2⟩ := set_returns h p.Key p.Value
      have hnone : om.idxLookup.lookup p.Key = none := by
        apply lookup_of_not_exists
        cases he : om.Exists p.Key with
        | false => rfl
        | true => exact absurd ((exists_iff_mem_getKeys h p.Key).1 he) hmem
      have hl2 := getList_set_absent hnone hs
      have hk2 : om2.GetKeys = om.GetKeys ++ [p.Key] := by
        rw [getKeys_set h hs, if_neg hmem]
      obtain ⟨om1, hf, hc1, hl⟩ := ih hnd.2 hc2
      refine ⟨om1, ?_, hc1, ?_⟩
      · simp only [List.foldlM_cons, appendStep_set hmem h, hs]
        exact hf
      · rw [hl, hl2, hk2, List.filter_cons]
        simp only [hmem, not_false_eq_true, decide_True, if_true]
        rw [List.append_assoc]
        congr 1
        show p :: _ = p :: _
        congr 1
        apply List.filter_congr
        intro kv hkv
        have hne : kv.Key ≠ p.Key := by
          intro heq
          exact hnd.1 (heq ▸ List.mem_map_of_mem KV.Key hkv)
        simp [hne]

theorem firstOccurrences_of_nodup (ks : List KeyType) (h : ks.Nodup) :
    firstOccurrences ks = ks := by
  induction ks with
  | nil => rfl
  | cons k ks ih =>
    rw [List.nodup_cons] at h
    rw [firstOccurrences, ih h.2]
    congr 1
    rw [List.filter_eq_self]
    intro a ha
    have : a ≠ k := fun hak => h.1 (hak ▸ ha)
    simp [this]

theorem lastValue_of_not_mem (ps : List KV) (k : KeyType) (hk : k ∉ ps.map KV.Key) :
    lastValue ps k = none := by
  have hf : ps.reverse.find? (fun kv => decide (kv.Key = k)) = none := by
    rw [List.find?_eq_none]
    intro kv hkv
    have hmem : kv ∈ ps := List.mem_reverse.1 hkv
    have : kv.Key ≠ k := fun heq => hk (heq ▸ List.mem_map_of_mem KV.Key hmem)
    simp [this]
  unfold lastValue
  rw [hf]
  rfl

theorem lastValue_of_nodup (ps : List KV) (hnd : (ps.map KV.Key).Nodup) {kv : KV}
    (hkv : kv ∈ ps) : lastValue ps kv.Key = some kv.Value := by
  induction ps with
  | nil => simp at hkv
  | cons p ps ih =>
    rw [List.map_cons, List.nodup_cons] at hnd
    rw [lastValue_cons]
    rcases List.mem_cons.1 hkv with heq | hmem
    · subst heq
      rw [lastValue_of_not_mem ps kv.Key hnd.1]
      simp
    · rw [ih hnd.2 hmem]

theorem append_overwrite_effect (ps : List KV) {om : OrderedMap} (h : om.Consistent) :
    ∃ om1 : OrderedMap, ps.foldlM (OrderedMap.appendStep true) om = some om1 ∧
      om1.Consistent ∧
      om1.GetKeys = om.GetKeys ++
        (firstOccurrences (ps.map KV.Key)).filter (fun a => decide (a ∉ om.GetKeys)) ∧
      ∀ k : KeyType, om1.Get k =
        match lastValue ps k with
        | some v => some v
        | none => om.Get k := by
  have hstep : OrderedMap.appendStep true =
      fun (om : OrderedMap) (kv : KV) => OrderedMap.newStep om (some kv) := by
    funext om kv
    simp [OrderedMap.appendStep, OrderedMap.newStep]
  rw [hstep, ← List.foldlM_map]
  exact set_list_effect ps h

/-! ## Appending pairs that are already there -/

theorem set_same (l : List (Option KV)) (i : Nat) (a : Option KV) (h : l[i]? = some a) :
    l.set i a = l := by
  induction l generalizing i with
  | nil => rfl
  | cons x l ih =>
    cases i with
    | zero =>
      simp at h
      simp [h]
    | succ i =>
      simp at h
      simp [ih i h]

theorem set_present {om : OrderedMap} (h : om.Consistent) {kv : KV}
    (hkv : kv ∈ om.GetList) : om.Set kv.Key kv.Value = some om := by
  obtain ⟨i, hi⟩ := (mem_getList om kv).1 hkv
  have hl : om.idxLookup.lookup kv.Key = some i := (h kv.Key i).2 ⟨kv, hi, rfl⟩
  rw [set_of_live h kv.Key kv.Value hl]
  have : om.kvList.set i (some { Key := kv.Key, Value := kv.Value }) = om.kvList :=
    set_same om.kvList i (some kv) hi
  rw [this]

theorem append_fixed (overwrite : Bool) {om : OrderedMap} (h : om.Consistent)
    (ps : List KV)
    (hps : ∀ kv ∈ ps, kv.Key ∈ om.GetKeys ∧ (overwrite = true → kv ∈ om.GetList)) :
    ps.foldlM (OrderedMap.appendStep overwrite) om = some om := by
  induction ps with
  | nil => rfl
  | cons p ps ih =>
    obtain ⟨hkey, hmem⟩ := hps p (List.mem_cons_self p ps)
    have hstep : OrderedMap.appendStep overwrite om p = some om := by
      cases overwrite with
      | false => exact appendStep_skip hkey h
      | true =>
        have : OrderedMap.appendStep true om p = om.Set p.Key p.Value := by
          simp [OrderedMap.appendStep]
        rw [this]
        exact set_present h (hmem rfl)
    simp only [List.foldlM_cons, hstep]
    exact ih (fun kv hkv => hps kv (List.mem_cons_of_mem p hkv))

theorem append_then_present (overwrite : Bool) {a b : OrderedMap} (ha : a.Consistent)
    (hb : b.Consistent) :
    ∃ a1 : OrderedMap, a.Append b overwrite = some a1 ∧ a1.Consistent ∧
      ∀ kv ∈ b.GetList, kv.Key ∈ a1.GetKeys ∧ (overwrite = true → kv ∈ a1.GetList) := by
  have hnd : (b.GetList.map KV.Key).Nodup := by
    rw [← getKeys_eq_map_getList]
    exact getKeys_nodup hb
  cases overwrite with
  | false =>
    obtain ⟨a1, hf, hc1, hl⟩ := append_keep_effect b.GetList hnd ha
    refine ⟨a1, hf, hc1, ?_⟩
    intro kv hkv
    refine ⟨?_, fun hfalse => absurd hfalse (by simp)⟩
    rw [getKeys_eq_map_getList a1, hl, List.map_append, List.mem_append]
    by_cases hmem : kv.Key ∈ a.GetKeys
    · left
      rw [← getKeys_eq_map_getList]
      exact hmem
    · right
      apply List.mem_map_of_mem
      rw [List.mem_filter]
      exact ⟨hkv, by simp [hmem]⟩
  | true =>
    obtain ⟨a1, hf, hc1, hkeys, hget⟩ := append_overwrite_effect b.GetList ha
    refine ⟨a1, hf, hc1, ?_⟩
    intro kv hkv
    have hkey : kv.Key ∈ a1.GetKeys := by
      rw [hkeys, List.mem_append]
      by_cases hmem : kv.Key ∈ a.GetKeys
      · exact Or.inl hmem
      · right
        rw [List.mem_filter, firstOccurrences_of_nodup _ hnd]
        exact ⟨List.mem_map_of_mem KV.Key hkv, by simp [hmem]⟩
    refine ⟨hkey, fun _ => ?_⟩
    have hg : a1.Get kv.Key = some kv.Value := by
      rw [hget kv.Key, lastValue_of_nodup b.GetList hnd hkv]
    exact mem_getList_of_get hc1 hkey hg

theorem new_returns_aux (kvList : List (Option KV)) (hk : ∀ p ∈ kvList, p ≠ none)
    {om : OrderedMap} (h : om.Consistent) :
    ∃ om1 : OrderedMap, kvList.foldlM OrderedMap.newStep om = some om1 := by
  induction kvList generalizing om with
  | nil => exact ⟨om, rfl⟩
  | cons p l ih =>
    cases p with
    | none => exact absurd rfl (hk none (List.mem_cons_self none l))
    | some kv =>
      obtain ⟨om2, h2, hc2⟩ := set_returns h kv.Key kv.Value
      obtain ⟨om1, h1⟩ := ih (fun q hq => hk q (List.mem_cons_of_mem _ hq)) hc2
      exact ⟨om1, by simp only [List.foldlM_cons, OrderedMap.newStep, h2]; exact h1⟩

/-! ## Serialization -/

theorem marshalLoop_live {ε : Type} (encKey : KeyType → Except ε String)
    (encValue : ValueType → Except ε String) (l : List (Option KV)) (buffer : String)
    (first : Bool) :
    OrderedMap.marshalLoop encKey encValue l buffer first =
      OrderedMap.marshalLoop encKey encValue ((l.filterMap id).map some) buffer first := by
  induction l generalizing buffer first with
  | nil => rfl
  | cons slot rest ih =>
    cases slot with
    | none =>
      rw [OrderedMap.marshalLoop, ih]
      rfl
    | some kv =>
      show _ = OrderedMap.marshalLoop encKey encValue
        (some kv :: (rest.filterMap id).map some) buffer first
      rw [OrderedMap.marshalLoop, OrderedMap.marshalLoop]
      cases encKey kv.Key with
      | error err => rfl
      | ok jsonKey =>
        cases encValue kv.Value with
        | error err => rfl
        | ok jsonValue => exact ih _ _

theorem marshalJSON_live {ε : Type} (encKey : KeyType → Except ε String)
    (encValue : ValueType → Except ε String) (om om2 : OrderedMap)
    (h : om2.GetList = om.GetList) :
    om2.MarshalJSON encKey encValue = om.MarshalJSON encKey encValue := by
  unfold OrderedMap.MarshalJSON
  rw [marshalLoop_live encKey encValue om2.kvList, marshalLoop_live encKey encValue om.kvList]
  unfold OrderedMap.GetList at h
  rw [h]

theorem marshalLoop_rest {ε : Type} (encKey : KeyType → Except ε String)
    (encValue : ValueType → Except ε String) (fk : KeyType → String)
    (fv : ValueType → String) (ps : List KV)
    (h : ∀ kv ∈ ps, encKey kv.Key = Except.ok (fk kv.Key) ∧
      encValue kv.Value = Except.ok (fv kv.Value))
    (buffer : String) :
    OrderedMap.marshalLoop encKey encValue (ps.map some) buffer false =
      Except.ok (buffer ++
        commaEntries (ps.map (fun kv => fk kv.Key ++ ":" ++ fv kv.Value))) := by
  induction ps generalizing buffer with
  | nil => simp [OrderedMap.marshalLoop, commaEntries]
  | cons p ps ih =>
    have hp := h p (List.mem_cons_self p ps)
    have hps : ∀ kv ∈ ps, encKey kv.Key = Except.ok (fk kv.Key) ∧
        encValue kv.Value = Except.ok (fv kv.Value) :=
      fun kv hkv => h kv (List.mem_cons_of_mem p hkv)
    simp only [List.map_cons, OrderedMap.marshalLoop, hp.1, hp.2, commaEntries]
    rw [ih hps]
    simp [String.append_assoc]

theorem marshalLoop_all {ε : Type} (encKey : KeyType → Except ε String)
    (encValue : ValueType → Except ε String) (fk : KeyType → String)
    (fv : ValueType → String) (ps : List KV)
    (h : ∀ kv ∈ ps, encKey kv.Key = Except.ok (fk kv.Key) ∧
      encValue kv.Value = Except.ok (fv kv.Value))
    (buffer : String) :
    OrderedMap.marshalLoop encKey encValue (ps.map some) buffer true =
      Except.ok (buffer ++
        joinEntries (ps.map (fun kv => fk kv.Key ++ ":" ++ fv kv.Value))) := by
  cases ps with
  | nil => simp [OrderedMap.marshalLoop, joinEntries]
  | cons p ps =>
    have hp := h p (List.mem_cons_self p ps)
    have hps : ∀ kv ∈ ps, encKey kv.Key = Except.ok (fk kv.Key) ∧
        encValue kv.Value = Except.ok (fv kv.Value) :=
      fun kv hkv => h kv (List.mem_cons_of_mem p hkv)
    simp only [List.map_cons, OrderedMap.marshalLoop, hp.1, hp.2, joinEntries]
    rw [marshalLoop_rest encKey encValue fk fv ps hps]
    simp [String.append_assoc]

theorem marshalLoop_error_at {ε : Type} (encKey : KeyType → Except ε String)
    (encValue : ValueType → Except ε String) (pre : List KV) (kv : KV) (post : List KV)
    (err : ε)
    (hpre : ∀ p ∈ pre, (∃ t, encKey p.Key = Except.ok t) ∧ ∃ t, encValue p.Value = Except.ok t)
    (hfail : encKey kv.Key = Except.error err ∨
      ((∃ t, encKey kv.Key = Except.ok t) ∧ encValue kv.Value = Except.error err))
    (buffer : String) (first : Bool) :
    OrderedMap.marshalLoop encKey encValue ((pre ++ kv :: post).map some) buffer first =
      Except.error err := by
  induction pre generalizing buffer first with
  | nil =>
    rcases hfail with hk | ⟨⟨t, ht⟩, hv⟩
    · simp [OrderedMap.marshalLoop, hk]
    · simp [OrderedMap.marshalLoop, ht, hv]
  | cons p pre ih =>
    obtain ⟨⟨t1, ht1⟩, ⟨t2, ht2⟩⟩ := hpre p (List.mem_cons_self p pre)
    simp only [List.cons_append, List.map_cons, OrderedMap.marshalLoop, ht1, ht2]
    exact ih (fun q hq => hpre q (List.mem_cons_of_mem p hq)) _ _

theorem marshalLoop_error_source {ε : Type} (encKey : KeyType → Except ε String)
    (encValue : ValueType → Except ε String) (ps : List KV) (err : ε) (buffer : String)
    (first : Bool)
    (h : OrderedMap.marshalLoop encKey encValue (ps.map some) buffer first =
      Except.error err) :
    ∃ (pre : List KV) (kv : KV) (post : List KV), ps = pre ++ kv :: post ∧
      (∀ p ∈ pre, (∃ t, encKey p.Key = Except.ok t) ∧ ∃ t, encValue p.Value = Except.ok t) ∧
      (encKey kv.Key = Except.error err ∨
        ((∃ t, encKey kv.Key = Except.ok t) ∧ encValue kv.Value = Except.error err)) := by
  induction ps generalizing buffer first with
  | nil => simp [OrderedMap.marshalLoop] at h
  | cons p ps ih =>
    simp only [List.map_cons, OrderedMap.marshalLoop] at h
    cases hk : encKey p.Key with
    | error e1 =>
      rw [hk] at h
      have he : e1 = err := by simpa using h
      exact ⟨[], p, ps, rfl, by simp, Or.inl (by rw [hk, he])⟩
    | ok t1 =>
      rw [hk] at h
      cases hv : encValue p.Value with
      | error e2 =>
        rw [hv] at h
        have he : e2 = err := by simpa using h
        exact ⟨[], p, ps, rfl, by simp, Or.inr ⟨⟨t1, hk⟩, by rw [hv, he]⟩⟩
      | ok t2 =>
        rw [hv] at h
        obtain ⟨pre, kv, post, hsplit, hpre, hfail⟩ := ih _ _ h
        refine ⟨p :: pre, kv, post, by rw [hsplit]; rfl, ?_, hfail⟩
        intro q hq
        rcases List.mem_cons.1 hq with heq | hmem
        · rw [heq]
          exact ⟨⟨t1, hk⟩, ⟨t2, hv⟩⟩
        · exact hpre q hmem

theorem first_failing_pair {ε : Type} (encKey : KeyType → Except ε String)
    (encValue : ValueType → Except ε String) (ps : List KV)
    (h : ∃ kv ∈ ps, (∃ e, encKey kv.Key = Except.error e) ∨
      (∃ e, encValue kv.Value = Except.error e)) :
    ∃ (pre : List KV) (kv : KV) (post : List KV) (err : ε), ps = pre ++ kv :: post ∧
      (∀ p ∈ pre, (∃ t, encKey p.Key = Except.ok t) ∧ ∃ t, encValue p.Value = Except.ok t) ∧
      (encKey kv.Key = Except.error err ∨
        ((∃ t, encKey kv.Key = Except.ok t) ∧ encValue kv.Value = Except.error err)) := by
  induction ps with
  | nil =>
    obtain ⟨kv, hkv, -⟩ := h
    simp at hkv
  | cons p ps ih =>
    cases hk : encKey p.Key with
    | error e1 => exact ⟨[], p, ps, e1, rfl, by simp, Or.inl hk⟩
    | ok t1 =>
      cases hv : encValue p.Value with
      | error e2 => exact ⟨[], p, ps, e2, rfl, by simp, Or.inr ⟨⟨t1, hk⟩, hv⟩⟩
      | ok t2 =>
        have hrest : ∃ kv ∈ ps, (∃ e, encKey kv.Key = Except.error e) ∨
            (∃ e, encValue kv.Value = Except.error e) := by
          obtain ⟨kv, hkv, hfail⟩ := h
          rcases List.mem_cons.1 hkv with heq | hmem
          · subst heq
            rcases hfail with ⟨e, he⟩ | ⟨e, he⟩
            · rw [hk] at he
              simp at he
            · rw [hv] at he
              simp at he
          · exact ⟨kv, hmem, hfail⟩
        obtain ⟨pre, kv, post, err, hsplit, hpre, hfail⟩ := ih hrest
        refine ⟨p :: pre, kv, post, err, by rw [hsplit]; rfl, ?_, hfail⟩
        intro q hq
        rcases List.mem_cons.1 hq with heq | hmem
        · rw [heq]
          exact ⟨⟨t1, hk⟩, ⟨t2, hv⟩⟩
        · exact hpre q hmem

theorem marshalJSON_error_iff {ε : Type} (encKey : KeyType → Except ε String)
    (encValue : ValueType → Except ε String) (om : OrderedMap) (err : ε) :
    om.MarshalJSON encKey encValue = Except.error err ↔
      OrderedMap.marshalLoop encKey encValue (om.GetList.map some) "\x7b" true =
        Except.error err := by
  unfold OrderedMap.MarshalJSON
  rw [marshalLoop_live encKey encValue om.kvList]
  show _ ↔ OrderedMap.marshalLoop encKey encValue ((om.kvList.filterMap id).map some)
    "\x7b" true = Except.error err
  cases OrderedMap.marshalLoop encKey encValue ((om.kvList.filterMap id).map some)
    "\x7b" true with
  | error e => simp
  | ok t => simp

/-! ## Sample maps are reachable -/

theorem sampleMap_reachable : Reachable sampleMap :=
  Reachable.new sampleArgs sampleMap (by decide)

theorem sampleDeleted_reachable : Reachable sampleDeleted :=
  Reachable.delete sampleMap sampleDeleted "y" sampleMap_reachable (by decide)

theorem empty_reachable : Reachable OrderedMap.empty :=
  Reachable.new [] OrderedMap.empty rfl

theorem sampleFuncMap_reachable : Reachable sampleFuncMap :=
  Reachable.new [some { Key := "x", Value := ValueType.int 1 },
    some { Key := "f", Value := ValueType.func 0 }] sampleFuncMap (by decide)

theorem sampleNilMap_reachable : Reachable sampleNilMap :=
  Reachable.set OrderedMap.empty sampleNilMap "n" ValueType.nil empty_reachable (by decide)

/-! ## Claims -/

/-- C1: in every map reachable from `NewOrderedMap` by `Set`, `Delete` and `Append`,
the index sends a key `k` to a position `i` if and only if `i` is within `kvList`,
slot `i` is present and the key stored there is `k`; hence a present slot is indexed
by exactly its own key, and a tombstoned slot by no key. -/
theorem C1_index_sequence_consistent (om : OrderedMap) (h : Reachable om) :
    (∀ (k : KeyType) (i : Nat),
      om.idxLookup.lookup k = some i ↔
        i < om.kvList.length ∧ ∃ kv : KV, om.kvList[i]? = some (some kv) ∧ kv.Key = k) ∧
    (∀ (i : Nat) (kv : KV), om.kvList[i]? = some (some kv) →
      ∀ k : KeyType, om.idxLookup.lookup k = some i ↔ k = kv.Key) ∧
    (∀ i : Nat, om.kvList[i]? = some none →
      ∀ k : KeyType, om.idxLookup.lookup k ≠ some i) := by
  have hc := reachable_consistent h
  refine ⟨?_, ?_, ?_⟩
  · intro k i
    constructor
    · intro hk
      exact ⟨consistent_lt hc hk, (hc k i).1 hk⟩
    · rintro ⟨-, hkv⟩
      exact (hc k i).2 hkv
  · intro i kv hkv k
    rw [hc k i]
    constructor
    · rintro ⟨kv1, hkv1, hkey⟩
      rw [hkv] at hkv1
      have : kv = kv1 := by simpa using hkv1
      rw [this, hkey]
    · intro hk
      exact ⟨kv, hkv, hk.symm⟩
  · intro i hi k hk
    obtain ⟨kv, hkv, -⟩ := (hc k i).1 hk
    rw [hi] at hkv
    simp at hkv


/-- C2: for every list of pairs `ps`, `NewOrderedMap(ps)` returns a map whose
`GetKeys()` is the keys of `ps` with every repeated key removed except its first
occurrence, and whose `Get(k)`, for every key `k` occurring in `ps`, is the value of
the last pair of `ps` whose key is `k`. -/
theorem C2_new_first_position_last_value (ps : List KV) :
    ∃ om : OrderedMap, NewOrderedMap (ps.map some) = some om ∧
      om.GetKeys = firstOccurrences (ps.map KV.Key) ∧
      ∀ k ∈ ps.map KV.Key, ∃ v : ValueType, lastValue ps k = some v ∧ om.Get k = some v := by
  obtain ⟨om, hf, -, hkeys, hget⟩ := set_list_effect ps consistent_empty
  refine ⟨om, hf, ?_, ?_⟩
  · rw [hkeys]
    simp [OrderedMap.GetKeys, OrderedMap.empty]
  · intro k hk
    obtain ⟨v, hv⟩ := lastValue_of_mem ps k hk
    refine ⟨v, hv, ?_⟩
    rw [hget k, hv]

/-- C3: `Set` on a live key of a reachable map returns, leaves `GetKeys()` and
`Len()` as they were, and `GetList()` afterwards is `GetList()` before with the value
of the pair whose key is `k` replaced by `v`, every other pair and every position
unchanged. -/
theorem C3_set_live_in_place (om : OrderedMap) (h : Reachable om) (k : KeyType)
    (v : ValueType) (hk : om.Exists k = true) :
    ∃ om1 : OrderedMap, om.Set k v = some om1 ∧
      om1.GetKeys = om.GetKeys ∧ om1.Len = om.Len ∧
      om1.GetList =
        om.GetList.map (fun kv => if kv.Key = k then { Key := k, Value := v } else kv) ∧
      ∃ (g1 : List KV) (old : ValueType) (g2 : List KV),
        om.GetList = g1 ++ { Key := k, Value := old } :: g2 ∧
        om1.GetList = g1 ++ { Key := k, Value := v } :: g2 ∧
        (∀ kv ∈ g1 ++ g2, kv.Key ≠ k) := by
  have hc := reachable_consistent h
  obtain ⟨i, hi⟩ := lookup_of_exists hk
  obtain ⟨g1, old, g2, hg, hg1, hg2, hset⟩ := getList_split hc hi
  have hlist : OrderedMap.GetList
      { kvList := om.kvList.set i (some { Key := k, Value := v }),
        idxLookup := om.idxLookup } = g1 ++ { Key := k, Value := v } :: g2 := by
    unfold OrderedMap.GetList
    rw [hset]
    simp
  refine ⟨_, set_of_live hc k v hi, ?_, rfl, ?_, g1, old, g2, hg, hlist, ?_⟩
  · rw [getKeys_eq_map_getList, getKeys_eq_map_getList, hlist, hg]
    simp
  · rw [hlist, hg, List.map_append, List.map_cons, map_replace_of_keys_ne g1 k v hg1,
      map_replace_of_keys_ne g2 k v hg2]
    simp
  · intro kv hkv
    rcases List.mem_append.1 hkv with h1 | h2
    · exact hg1 kv h1
    · exact hg2 kv h2

/-- C4: `Set` on a key that is not live in a reachable map returns; `GetList()`
afterwards is `GetList()` before followed by the pair `(k, v)`, `Len()` grows by
exactly one, and the index records for `k` the position of the newly appended last
slot. -/
theorem C4_set_new_appends (om : OrderedMap) (h : Reachable om) (k : KeyType)
    (v : ValueType) (hk : om.Exists k = false) :
    ∃ om1 : OrderedMap, om.Set k v = some om1 ∧
      om1.GetList = om.GetList ++ [{ Key := k, Value := v }] ∧
      om1.Len = om.Len + 1 ∧
      om1.kvList = om.kvList ++ [some { Key := k, Value := v }] ∧
      om1.idxLookup.lookup k = some (om1.kvList.length - 1) ∧
      om1.kvList[om1.kvList.length - 1]? = some (some { Key := k, Value := v }) := by
  have hl := lookup_of_not_exists hk
  have hc := consistent_set_absent (reachable_consistent h) k v hl
  refine ⟨_, set_of_absent om k v hl, ?_, ?_, rfl, ?_, ?_⟩
  · unfold OrderedMap.GetList
    simp [List.filterMap_append]
  · rw [len_eq_length_getList hc, len_eq_length_getList (reachable_consistent h)]
    unfold OrderedMap.GetList
    simp [List.filterMap_append]
  · show (om.idxLookup.insert k om.kvList.length).lookup k = _
    rw [Finmap.lookup_insert]
    simp
  · simp

/-- C5: on a reachable map `Get(k)` after `Set(k, v)` returns `v`; for a key `k1`
other than `k`, `Get(k1)` returns the same result after `Set(k, v)` or `Delete(k)` as
before; and `Get(k)` returns nil whenever `k` is not live. -/
theorem C5_get_current_or_nil (om : OrderedMap) (h : Reachable om) (k k1 : KeyType)
    (v : ValueType) :
    (∃ om1 : OrderedMap, om.Set k v = some om1 ∧ om1.Get k = some v ∧
      (k1 ≠ k → om1.Get k1 = om.Get k1)) ∧
    (∃ om2 : OrderedMap, om.Delete k = some om2 ∧ (k1 ≠ k → om2.Get k1 = om.Get k1)) ∧
    (∃ r : ValueType, om.Get k1 = some r) ∧
    (om.Exists k = false → om.Get k = some ValueType.nil) := by
  have hc := reachable_consistent h
  obtain ⟨om1, hs, -⟩ := set_returns hc k v
  obtain ⟨om2, hd, -⟩ := delete_returns hc k
  exact ⟨⟨om1, hs, get_set_self hc hs, get_set_other hc hs k1⟩,
    ⟨om2, hd, get_delete_other hc hd k1⟩, get_returns hc k1,
    fun hk => get_of_absent om k (lookup_of_not_exists hk)⟩

/-- C6: in every reachable map `Exists(k)` is true exactly when `k` occurs in
`GetKeys()`, that is when some present slot of the sequence holds key `k`. -/
theorem C6_exists_iff_live (om : OrderedMap) (h : Reachable om) (k : KeyType) :
    (om.Exists k = true ↔ k ∈ om.GetKeys) ∧
    (om.Exists k = true ↔
      ∃ (i : Nat) (kv : KV), om.kvList[i]? = some (some kv) ∧ kv.Key = k) := by
  have hc := reachable_consistent h
  exact ⟨exists_iff_mem_getKeys hc k, by rw [exists_iff_mem_getKeys hc k, mem_getKeys]⟩

/-- C7: in every reachable map `Len()` is the length of `GetKeys()` and of `GetList()`,
which is the number of non-tombstoned slots of the sequence, at most its physical
length. -/
theorem C7_len_counts_live (om : OrderedMap) (h : Reachable om) :
    om.Len = om.GetKeys.length ∧ om.Len = om.GetList.length ∧
    om.Len = (om.kvList.filter Option.isSome).length ∧ om.Len ≤ om.kvList.length := by
  have hc := reachable_consistent h
  have h1 := len_eq_length_getKeys hc
  have h2 : om.GetKeys.length = om.GetList.length := by
    rw [getKeys_eq_map_getList, List.length_map]
  have h3 : om.GetList.length = (om.kvList.filter Option.isSome).length :=
    length_getList_eq_count om.kvList
  refine ⟨h1, by omega, by omega, ?_⟩
  have := List.length_filter_le Option.isSome om.kvList
  omega

/-- C8: `Delete` of a live key of a reachable map returns; afterwards `Exists(k)` is
false, `Get(k)` is nil, `Len()` is one less, and `GetList()` is `GetList()` before
with the single pair whose key is `k` removed, the other pairs keeping their values
and relative order. -/
theorem C8_delete_live_removes (om : OrderedMap) (h : Reachable om) (k : KeyType)
    (hk : om.Exists k = true) :
    ∃ om1 : OrderedMap, om.Delete k = some om1 ∧
      om1.Exists k = false ∧ om1.Get k = some ValueType.nil ∧ om1.Len + 1 = om.Len ∧
      om1.GetList = om.GetList.filter (fun kv => decide (kv.Key ≠ k)) ∧
      ∃ (g1 : List KV) (old : ValueType) (g2 : List KV),
        om.GetList = g1 ++ { Key := k, Value := old } :: g2 ∧
        om1.GetList = g1 ++ g2 ∧ (∀ kv ∈ g1 ++ g2, kv.Key ≠ k) := by
  have hc := reachable_consistent h
  obtain ⟨i, hi⟩ := lookup_of_exists hk
  obtain ⟨om1, g1, old, g2, hd, hc1, -, hl1, hg, hg1, hne⟩ := delete_live_effect hc hi
  refine ⟨om1, hd, ?_, get_of_absent om1 k hl1, ?_, ?_, g1, old, g2, hg, hg1, hne⟩
  · unfold OrderedMap.Exists
    rw [hl1]
    rfl
  · rw [len_eq_length_getList hc, len_eq_length_getList hc1, hg, hg1]
    simp
    omega
  · rw [hg, hg1, filter_split g1 g2 k old hne]

/-- C9: on every map, `Delete` of a key that is not live returns the state unchanged,
sequence store and index alike; and `Delete(k)` twice has the effect of `Delete(k)`
once. -/
theorem C9_delete_absent_noop (om : OrderedMap) (k : KeyType) :
    (om.Exists k = false → om.Delete k = some om) ∧
    (om.Delete k).bind (fun om1 => om1.Delete k) = om.Delete k := by
  constructor
  · intro hk
    exact delete_of_absent om k (lookup_of_not_exists hk)
  · cases hl : om.idxLookup.lookup k with
    | none =>
      rw [delete_of_absent om k hl]
      exact delete_of_absent om k hl
    | some i =>
      by_cases hlt : i < om.kvList.length
      · have hd : om.Delete k =
            some { kvList := om.kvList.set i none, idxLookup := om.idxLookup.erase k } := by
          simp [OrderedMap.Delete, hl, hlt]
        rw [hd]
        exact delete_of_absent _ k (Finmap.lookup_erase k om.idxLookup)
      · have hd : om.Delete k = none := by
          simp [OrderedMap.Delete, hl, hlt]
        rw [hd]
        rfl

/-- C10: on a reachable map with `k` live, `Delete(k)` followed by `Set(k, v)` returns;
`GetList()` afterwards is `GetList()` of the original map with the pair for `k`
removed, followed by `(k, v)`; the key does not return to its original slot: the new
slot position of `k` in the index is strictly greater than the old one, the old slot
stays a tombstone and the new slot is the last of the sequence. -/
theorem C10_reinsert_at_end (om : OrderedMap) (h : Reachable om) (k : KeyType)
    (v : ValueType) (hk : om.Exists k = true) :
    ∃ om1 om2 : OrderedMap, om.Delete k = some om1 ∧ om1.Set k v = some om2 ∧
      om2.GetList =
        om.GetList.filter (fun kv => decide (kv.Key ≠ k)) ++ [{ Key := k, Value := v }] ∧
      (∃ (g1 : List KV) (old : ValueType) (g2 : List KV),
        om.GetList = g1 ++ { Key := k, Value := old } :: g2 ∧
        om2.GetList = g1 ++ g2 ++ [{ Key := k, Value := v }] ∧
        (∀ kv ∈ g1 ++ g2, kv.Key ≠ k)) ∧
      ∃ i j : Nat, om.idxLookup.lookup k = some i ∧ om2.idxLookup.lookup k = some j ∧
        i < j ∧ j + 1 = om2.kvList.length ∧ om2.kvList[i]? = some none ∧
        om2.kvList[j]? = some (some { Key := k, Value := v }) := by
  have hc := reachable_consistent h
  obtain ⟨i, hi⟩ := lookup_of_exists hk
  obtain ⟨om1, g1, old, g2, hd, hc1, hkv1, hl1, hg, hg1, hne⟩ := delete_live_effect hc hi
  have hlt := consistent_lt hc hi
  have hlen1 : om1.kvList.length = om.kvList.length := by
    rw [hkv1, List.length_set]
  have hlist : OrderedMap.GetList
      { kvList := om1.kvList ++ [some { Key := k, Value := v }],
        idxLookup := om1.idxLookup.insert k om1.kvList.length } =
      om1.GetList ++ [{ Key := k, Value := v }] := by
    unfold OrderedMap.GetList
    simp [List.filterMap_append]
  refine ⟨om1, _, hd, set_of_absent om1 k v hl1, ?_, ⟨g1, old, g2, hg, ?_, hne⟩,
    i, om1.kvList.length, hi, Finmap.lookup_insert _, by omega, ?_, ?_, ?_⟩
  · rw [hlist, hg1, hg, filter_split g1 g2 k old hne]
  · rw [hlist, hg1]
  · show om1.kvList.length + 1 =
      (om1.kvList ++ [some ({ Key := k, Value := v } : KV)]).length
    simp
  · show (om1.kvList ++ [some { Key := k, Value := v }])[i]? = some none
    rw [List.getElem?_append_left (by omega), hkv1, List.getElem?_set_self hlt]
  · show (om1.kvList ++ [some { Key := k, Value := v }])[om1.kvList.length]? = _
    simp

/-- C11: for reachable maps `a` and `b`, `a.Append(b, false)` returns and its
`GetList()` is `GetList(a)` followed by exactly those pairs of `GetList(b)` whose key
is not live in `a`, in the order of `b`; so a key live in `a` keeps the value and the
position it has in `a`. -/
theorem C11_append_keeps_receiver (a b : OrderedMap) (ha : Reachable a) (hb : Reachable b) :
    ∃ a1 : OrderedMap, a.Append b false = some a1 ∧
      a1.GetList = a.GetList ++ b.GetList.filter (fun kv => !a.Exists kv.Key) ∧
      (∀ k : KeyType, a.Exists k = true → a1.Get k = a.Get k) := by
  have hca := reachable_consistent ha
  have hcb := reachable_consistent hb
  have hnd : (b.GetList.map KV.Key).Nodup := by
    rw [← getKeys_eq_map_getList]
    exact getKeys_nodup hcb
  obtain ⟨a1, hf, hc1, hl⟩ := append_keep_effect b.GetList hnd hca
  have hfilter : b.GetList.filter (fun kv => decide (kv.Key ∉ a.GetKeys)) =
      b.GetList.filter (fun kv => !a.Exists kv.Key) := by
    apply List.filter_congr
    intro kv _
    by_cases hmem : kv.Key ∈ a.GetKeys
    · have := (exists_iff_mem_getKeys hca kv.Key).2 hmem
      simp [hmem, this]
    · have : a.Exists kv.Key = false := by
        cases he : a.Exists kv.Key with
        | false => rfl
        | true => exact absurd ((exists_iff_mem_getKeys hca kv.Key).1 he) hmem
      simp [hmem, this]
  refine ⟨a1, hf, by rw [hl, hfilter], ?_⟩
  intro k hk
  have hmem : k ∈ a.GetKeys := (exists_iff_mem_getKeys hca k).1 hk
  rw [getKeys_eq_map_getList] at hmem
  obtain ⟨kv, hkv, hkey⟩ := List.mem_map.1 hmem
  have hkv1 : kv ∈ a1.GetList := by
    rw [hl]
    exact List.mem_append_left _ hkv
  rw [← hkey, get_of_mem_getList hca hkv, get_of_mem_getList hc1 hkv1]

/-- C12: for reachable maps `a` and `b`, `a.Append(b, true)` returns; its `GetKeys()`
is `GetKeys(a)` followed by the keys of `b` that are not live in `a`, in the order of
`b`, and `Get(k)` on the result is the value `b` has for `k` when `k` is live in `b`
and the value `a` has otherwise. -/
theorem C12_append_overwrites (a b : OrderedMap) (ha : Reachable a) (hb : Reachable b) :
    ∃ a1 : OrderedMap, a.Append b true = some a1 ∧
      a1.GetKeys = a.GetKeys ++ b.GetKeys.filter (fun k => !a.Exists k) ∧
      (∀ k : KeyType, a1.Get k = if b.Exists k = true then b.Get k else a.Get k) := by
  have hca := reachable_consistent ha
  have hcb := reachable_consistent hb
  have hnd : (b.GetList.map KV.Key).Nodup := by
    rw [← getKeys_eq_map_getList]
    exact getKeys_nodup hcb
  obtain ⟨a1, hf, -, hkeys, hget⟩ := append_overwrite_effect b.GetList hca
  refine ⟨a1, hf, ?_, ?_⟩
  · rw [hkeys, firstOccurrences_of_nodup _ hnd, ← getKeys_eq_map_getList]
    congr 1
    apply List.filter_congr
    intro k _
    by_cases hmem : k ∈ a.GetKeys
    · have := (exists_iff_mem_getKeys hca k).2 hmem
      simp [hmem, this]
    · have : a.Exists k = false := by
        cases he : a.Exists k with
        | false => rfl
        | true => exact absurd ((exists_iff_mem_getKeys hca k).1 he) hmem
      simp [hmem, this]
  · intro k
    rw [hget k]
    by_cases hk : b.Exists k = true
    · rw [if_pos hk]
      have hmem : k ∈ b.GetKeys := (exists_iff_mem_getKeys hcb k).1 hk
      rw [getKeys_eq_map_getList] at hmem
      obtain ⟨kv, hkv, hkey⟩ := List.mem_map.1 hmem
      rw [← hkey, lastValue_of_nodup b.GetList hnd hkv, get_of_mem_getList hcb hkv]
    · rw [if_neg hk]
      have hnot : k ∉ b.GetList.map KV.Key := by
        rw [← getKeys_eq_map_getList]
        exact fun hmem => hk ((exists_iff_mem_getKeys hcb k).2 hmem)
      rw [lastValue_of_not_mem b.GetList k hnot]

/-- C13: in every reachable map the keys of `GetList()` are `GetKeys()`, same length
and same order, and for every pair `(k, v)` of `GetList()`, `Get(k)` returns `v`. -/
theorem C13_getList_agrees_with_getKeys (om : OrderedMap) (h : Reachable om) :
    om.GetList.map KV.Key = om.GetKeys ∧ om.GetList.length = om.GetKeys.length ∧
    (∀ kv ∈ om.GetList, om.Get kv.Key = some kv.Value) := by
  have hc := reachable_consistent h
  refine ⟨(getKeys_eq_map_getList om).symm, ?_, fun kv hkv => get_of_mem_getList hc hkv⟩
  rw [getKeys_eq_map_getList, List.length_map]

/-- C14: for every map and every encoder that succeeds on each live key and value,
`MarshalJSON` returns an opening brace, then for each pair `(k, v)` of `GetList()` in
order the encoded key, a colon and the encoded value, separated by single commas with
no leading or trailing comma, then a closing brace; a map with no live entries
serializes to exactly `{}`, and the result depends on the live entries only, so
tombstoned slots contribute nothing. -/
theorem C14_marshal_object_text {ε : Type} (om : OrderedMap)
    (encKey : KeyType → Except ε String) (encValue : ValueType → Except ε String)
    (fk : KeyType → String) (fv : ValueType → String)
    (h : ∀ kv ∈ om.GetList, encKey kv.Key = Except.ok (fk kv.Key) ∧
      encValue kv.Value = Except.ok (fv kv.Value)) :
    om.MarshalJSON encKey encValue = Except.ok (objectText fk fv om.GetList) ∧
    (om.GetList = [] → om.MarshalJSON encKey encValue = Except.ok "\x7b\x7d") ∧
    (∀ om2 : OrderedMap, om2.GetList = om.GetList →
      om2.MarshalJSON encKey encValue = om.MarshalJSON encKey encValue) := by
  have hmain : om.MarshalJSON encKey encValue = Except.ok (objectText fk fv om.GetList) := by
    unfold OrderedMap.MarshalJSON
    rw [marshalLoop_live encKey encValue om.kvList]
    show (match OrderedMap.marshalLoop encKey encValue (om.GetList.map some) "\x7b" true with
      | Except.error err => Except.error err
      | Except.ok buffer => Except.ok (buffer ++ "\x7d")) = _
    rw [marshalLoop_all encKey encValue fk fv om.GetList h]
    rfl
  refine ⟨hmain, ?_, fun om2 h2 => marshalJSON_live encKey encValue om om2 h2⟩
  intro hempty
  rw [hmain, hempty]
  rfl

/-- C15: for every map and encoder, `MarshalJSON` returns an error, and no bytes, if
and only if the encoder fails on the key or the value of some pair of `GetList()`; it
returns the error `err` exactly when `err` is the error of the first failing pair in
order, the key being tried before the value; the result depends on the live entries
only, so a deleted entry never causes a failure. -/
theorem C15_marshal_fails_iff {ε : Type} (om : OrderedMap)
    (encKey : KeyType → Except ε String) (encValue : ValueType → Except ε String) :
    ((∃ err, om.MarshalJSON encKey encValue = Except.error err) ↔
      ∃ kv ∈ om.GetList, (∃ e, encKey kv.Key = Except.error e) ∨
        (∃ e, encValue kv.Value = Except.error e)) ∧
    (∀ err : ε, om.MarshalJSON encKey encValue = Except.error err ↔
      ∃ (pre : List KV) (kv : KV) (post : List KV), om.GetList = pre ++ kv :: post ∧
        (∀ p ∈ pre, (∃ t, encKey p.Key = Except.ok t) ∧
          ∃ t, encValue p.Value = Except.ok t) ∧
        (encKey kv.Key = Except.error err ∨
          ((∃ t, encKey kv.Key = Except.ok t) ∧ encValue kv.Value = Except.error err))) ∧
    (∀ om2 : OrderedMap, om2.GetList = om.GetList →
      om2.MarshalJSON encKey encValue = om.MarshalJSON encKey encValue) := by
  have hsecond : ∀ err : ε, om.MarshalJSON encKey encValue = Except.error err ↔
      ∃ (pre : List KV) (kv : KV) (post : List KV), om.GetList = pre ++ kv :: post ∧
        (∀ p ∈ pre, (∃ t, encKey p.Key = Except.ok t) ∧
          ∃ t, encValue p.Value = Except.ok t) ∧
        (encKey kv.Key = Except.error err ∨
          ((∃ t, encKey kv.Key = Except.ok t) ∧ encValue kv.Value = Except.error err)) := by
    intro err
    rw [marshalJSON_error_iff]
    constructor
    · intro h
      exact marshalLoop_error_source encKey encValue om.GetList err _ _ h
    · rintro ⟨pre, kv, post, hsplit, hpre, hfail⟩
      rw [hsplit]
      exact marshalLoop_error_at encKey encValue pre kv post err hpre hfail _ _
  refine ⟨?_, hsecond, fun om2 h2 => marshalJSON_live encKey encValue om om2 h2⟩
  constructor
  · rintro ⟨err, herr⟩
    obtain ⟨pre, kv, post, hsplit, -, hfail⟩ := (hsecond err).1 herr
    refine ⟨kv, by rw [hsplit]; simp, ?_⟩
    rcases hfail with hk | ⟨-, hv⟩
    · exact Or.inl ⟨err, hk⟩
    · exact Or.inr ⟨err, hv⟩
  · intro h
    obtain ⟨pre, kv, post, err, hsplit, hpre, hfail⟩ :=
      first_failing_pair encKey encValue om.GetList h
    exact ⟨err, (hsecond err).2 ⟨pre, kv, post, hsplit, hpre, hfail⟩⟩

/-- C16: the scenario `NewOrderedMap((x,1),(y,2))`, `Set(x,3)`, `Delete(y)`,
`Set(z,4)` runs without a panic; at its end `GetList()` is `[(x,3),(z,4)]`, `Len()`
is 2 and, with integers encoded as decimal digits and keys between double quotes,
`MarshalJSON` returns the text `{"x":3,"z":4}`. -/
theorem C16_scenario :
    ∃ m0 m1 m2 : OrderedMap,
      NewOrderedMap [some { Key := "x", Value := ValueType.int 1 },
        some { Key := "y", Value := ValueType.int 2 }] = some m0 ∧
      m0.Set "x" (ValueType.int 3) = some m1 ∧
      m1.Delete "y" = some m2 ∧
      m2.Set "z" (ValueType.int 4) = some scenarioMap ∧
      scenarioMap.GetList =
        [{ Key := "x", Value := ValueType.int 3 }, { Key := "z", Value := ValueType.int 4 }] ∧
      scenarioMap.Len = 2 ∧
      scenarioMap.MarshalJSON sampleEncKey sampleEncValue =
        Except.ok "\x7b\x22x\x22:3,\x22z\x22:4\x7d" :=
  ⟨sampleMap,
    { kvList := [some { Key := "x", Value := ValueType.int 3 },
                 some { Key := "y", Value := ValueType.int 2 }],
      idxLookup := (Finmap.singleton "x" 0).insert "y" 1 },
    { kvList := [some { Key := "x", Value := ValueType.int 3 }, none],
      idxLookup := Finmap.singleton "x" 0 },
    by decide, by decide, by decide, by decide, by decide, by decide, rfl⟩

/-- C17: in every reachable map, an index that `Set`, `Get` or `Delete` reads from
`idxLookup` is within the bounds of `kvList` and addresses a present slot, so `Set`,
`Get` and `Delete` return for every key and value, and so does `Append` of a
reachable map. -/
theorem C17_operations_total (om : OrderedMap) (h : Reachable om) (k : KeyType)
    (v : ValueType) (newOm : OrderedMap) (hn : Reachable newOm) (overwrite : Bool) :
    (∀ i : Nat, om.idxLookup.lookup k = some i →
      i < om.kvList.length ∧ ∃ kv : KV, om.kvList[i]? = some (some kv)) ∧
    (∃ om1 : OrderedMap, om.Set k v = some om1) ∧
    (∃ r : ValueType, om.Get k = some r) ∧
    (∃ om1 : OrderedMap, om.Delete k = some om1) ∧
    (∃ om1 : OrderedMap, om.Append newOm overwrite = some om1) := by
  have hc := reachable_consistent h
  have _hcn := reachable_consistent hn
  refine ⟨?_, ?_, get_returns hc k, ?_, ?_⟩
  · intro i hi
    obtain ⟨kv, hkv, -⟩ := (hc k i).1 hi
    exact ⟨consistent_lt hc hi, kv, hkv⟩
  · obtain ⟨om1, hs, -⟩ := set_returns hc k v
    exact ⟨om1, hs⟩
  · obtain ⟨om1, hd, -⟩ := delete_returns hc k
    exact ⟨om1, hd⟩
  · obtain ⟨om1, ha, -⟩ := append_returns newOm overwrite hc
    exact ⟨om1, ha⟩

/-- C18, as amended: for every argument list whose elements are non-nil pointers to
pairs, the empty list included, `NewOrderedMap` returns a map. -/
theorem C18_new_returns_on_pairs (kvList : List (Option KV))
    (h : ∀ p ∈ kvList, p ≠ none) :
    (∃ om : OrderedMap, NewOrderedMap kvList = some om) ∧
    NewOrderedMap [] = some OrderedMap.empty :=
  ⟨new_returns_aux kvList h consistent_empty, rfl⟩

/-- C18, as stated, fails: a nil pointer is a value of the parameter type, and on the
argument list holding one nil pointer `NewOrderedMap` panics when it reads the key. -/
theorem C18_nil_argument_panics :
    NewOrderedMap [none] = none ∧
    ¬ ∀ kvList : List (Option KV), ∃ om : OrderedMap, NewOrderedMap kvList = some om := by
  refine ⟨rfl, fun hall => ?_⟩
  obtain ⟨om, hom⟩ := hall [none]
  have hnone : NewOrderedMap [none] = none := rfl
  rw [hnone] at hom
  exact Option.noConfusion hom

/-- C19: for a reachable map `m` and either value of `overwrite`, `m.Append(m,
overwrite)` returns `m` unchanged, so `GetList()`, `GetKeys()` and `Len()` are the
same; appending a map without live entries is the identity; and appending the same
reachable map `b` a second time changes nothing. -/
theorem C19_append_idempotent (m a b : OrderedMap) (hm : Reachable m) (ha : Reachable a)
    (hb : Reachable b) (overwrite : Bool) :
    (∃ m1 : OrderedMap, m.Append m overwrite = some m1 ∧ m1 = m ∧
      m1.GetList = m.GetList ∧ m1.GetKeys = m.GetKeys ∧ m1.Len = m.Len) ∧
    (∀ e : OrderedMap, e.GetList = [] → m.Append e overwrite = some m) ∧
    (∃ a1 a2 : OrderedMap, a.Append b overwrite = some a1 ∧
      a1.Append b overwrite = some a2 ∧ a2.GetList = a1.GetList) := by
  have hcm := reachable_consistent hm
  refine ⟨⟨m, ?_, rfl, rfl, rfl, rfl⟩, ?_, ?_⟩
  · apply append_fixed overwrite hcm
    intro kv hkv
    refine ⟨?_, fun _ => hkv⟩
    rw [getKeys_eq_map_getList]
    exact List.mem_map_of_mem KV.Key hkv
  · intro e he
    unfold OrderedMap.Append
    rw [he]
    rfl
  · obtain ⟨a1, hf, hc1, hpresent⟩ :=
      append_then_present overwrite (reachable_consistent ha) (reachable_consistent hb)
    exact ⟨a1, a1, hf, append_fixed overwrite hc1 b.GetList hpresent, rfl⟩

/-- C20: the nil that `Get` returns for a key that is not live is also what it returns
for a live key whose stored value is nil: after `Set(n, nil)` on the empty map,
`Exists(n)` is true and `Get(n)` is nil; so `Get(k) = nil` does not imply that `k` is
absent, although `Exists(k) = false` does imply `Get(k) = nil`. -/
theorem C20_nil_value_looks_absent :
    (∃ (om : OrderedMap) (k : KeyType), Reachable om ∧
      OrderedMap.empty.Set k ValueType.nil = some om ∧
      om.Exists k = true ∧ om.Get k = some ValueType.nil) ∧
    (∃ (om : OrderedMap) (k : KeyType), Reachable om ∧
      om.Exists k = false ∧ om.Get k = some ValueType.nil) ∧
    (¬ ∀ (om : OrderedMap) (k : KeyType), Reachable om →
      om.Get k = some ValueType.nil → om.Exists k = false) ∧
    (∀ (om : OrderedMap) (k : KeyType), om.Exists k = false →
      om.Get k = some ValueType.nil) := by
  refine ⟨⟨sampleNilMap, "n", sampleNilMap_reachable, by decide, by decide, by decide⟩,
    ⟨sampleNilMap, "x", sampleNilMap_reachable, by decide, by decide⟩, ?_, ?_⟩
  · intro hall
    have := hall sampleNilMap "n" sampleNilMap_reachable (by decide)
    exact absurd this (by decide)
  · intro om k hk
    exact get_of_absent om k (lookup_of_not_exists hk)

/-! ## The claims at sample maps -/

theorem C1_index_sequence_consistent_witness :
    Reachable sampleDeleted ∧
    (sampleDeleted.idxLookup.lookup "x" = some 0 ↔
      0 < sampleDeleted.kvList.length ∧
        ∃ kv : KV, sampleDeleted.kvList[0]? = some (some kv) ∧ kv.Key = "x") ∧
    sampleDeleted.idxLookup.lookup "y" ≠ some 1 :=
  ⟨sampleDeleted_reachable,
    (C1_index_sequence_consistent sampleDeleted sampleDeleted_reachable).1 "x" 0,
    (C1_index_sequence_consistent sampleDeleted sampleDeleted_reachable).2.2 1
      (by decide) "y"⟩

theorem C3_set_live_in_place_witness :
    Reachable sampleMap ∧ sampleMap.Exists "x" = true ∧
    ∃ om1 : OrderedMap, sampleMap.Set "x" (ValueType.int 3) = some om1 ∧
      om1.GetKeys = sampleMap.GetKeys ∧ om1.Len = sampleMap.Len ∧
      om1.GetList = sampleMap.GetList.map
        (fun kv => if kv.Key = "x" then { Key := "x", Value := ValueType.int 3 } else kv) :=
  ⟨sampleMap_reachable, by decide,
    match C3_set_live_in_place sampleMap sampleMap_reachable "x" (ValueType.int 3)
      (by decide) with
    | ⟨om1, h1, h2, h3, h4, _⟩ => ⟨om1, h1, h2, h3, h4⟩⟩

theorem C4_set_new_appends_witness :
    Reachable sampleDeleted ∧ sampleDeleted.Exists "y" = false ∧
    ∃ om1 : OrderedMap, sampleDeleted.Set "y" (ValueType.int 5) = some om1 ∧
      om1.GetList = sampleDeleted.GetList ++ [{ Key := "y", Value := ValueType.int 5 }] ∧
      om1.Len = sampleDeleted.Len + 1 :=
  ⟨sampleDeleted_reachable, by decide,
    match C4_set_new_appends sampleDeleted sampleDeleted_reachable "y" (ValueType.int 5)
      (by decide) with
    | ⟨om1, h1, h2, h3, _⟩ => ⟨om1, h1, h2, h3⟩⟩

theorem C5_get_current_or_nil_witness :
    Reachable sampleDeleted ∧ sampleDeleted.Exists "y" = false ∧
    sampleDeleted.Get "y" = some ValueType.nil ∧
    ∃ om1 : OrderedMap, sampleDeleted.Set "y" (ValueType.int 5) = some om1 ∧
      om1.Get "y" = some (ValueType.int 5) :=
  ⟨sampleDeleted_reachable, by decide,
    (C5_get_current_or_nil sampleDeleted sampleDeleted_reachable "y" "x"
      (ValueType.int 5)).2.2.2 (by decide),
    match (C5_get_current_or_nil sampleDeleted sampleDeleted_reachable "y" "x"
      (ValueType.int 5)).1 with
    | ⟨om1, h1, h2, _⟩ => ⟨om1, h1, h2⟩⟩

theorem C6_exists_iff_live_witness :
    Reachable sampleDeleted ∧
    (sampleDeleted.Exists "y" = true ↔ "y" ∈ sampleDeleted.GetKeys) :=
  ⟨sampleDeleted_reachable,
    (C6_exists_iff_live sampleDeleted sampleDeleted_reachable "y").1⟩

theorem C7_len_counts_live_witness :
    Reachable sampleDeleted ∧ sampleDeleted.kvList.length = 2 ∧
    sampleDeleted.GetKeys.length = 1 ∧
    sampleDeleted.Len = sampleDeleted.GetKeys.length ∧
    sampleDeleted.Len = sampleDeleted.GetList.length :=
  ⟨sampleDeleted_reachable, by decide, by decide,
    (C7_len_counts_live sampleDeleted sampleDeleted_reachable).1,
    (C7_len_counts_live sampleDeleted sampleDeleted_reachable).2.1⟩

theorem C8_delete_live_removes_witness :
    Reachable sampleMap ∧ sampleMap.Exists "y" = true ∧
    ∃ om1 : OrderedMap, sampleMap.Delete "y" = some om1 ∧
      om1.Exists "y" = false ∧ om1.Get "y" = some ValueType.nil ∧
      om1.Len + 1 = sampleMap.Len ∧
      om1.GetList = sampleMap.GetList.filter (fun kv => decide (kv.Key ≠ "y")) :=
  ⟨sampleMap_reachable, by decide,
    match C8_delete_live_removes sampleMap sampleMap_reachable "y" (by decide) with
    | ⟨om1, h1, h2, h3, h4, h5, _⟩ => ⟨om1, h1, h2, h3, h4, h5⟩⟩

theorem C9_delete_absent_noop_witness :
    sampleDeleted.Exists "y" = false ∧ sampleDeleted.Delete "y" = some sampleDeleted :=
  ⟨by decide, (C9_delete_absent_noop sampleDeleted "y").1 (by decide)⟩

theorem C10_reinsert_at_end_witness :
    Reachable sampleMap ∧ sampleMap.Exists "x" = true ∧
    ∃ om1 om2 : OrderedMap, sampleMap.Delete "x" = some om1 ∧
      om1.Set "x" (ValueType.int 3) = some om2 ∧
      om2.GetList = sampleMap.GetList.filter (fun kv => decide (kv.Key ≠ "x")) ++
        [{ Key := "x", Value := ValueType.int 3 }] :=
  ⟨sampleMap_reachable, by decide,
    match C10_reinsert_at_end sampleMap sampleMap_reachable "x" (ValueType.int 3)
      (by decide) with
    | ⟨om1, om2, h1, h2, h3, _⟩ => ⟨om1, om2, h1, h2, h3⟩⟩

theorem C11_append_keeps_receiver_witness :
    Reachable sampleDeleted ∧ Reachable sampleMap ∧
    ∃ a1 : OrderedMap, sampleDeleted.Append sampleMap false = some a1 ∧
      a1.GetList = sampleDeleted.GetList ++
        sampleMap.GetList.filter (fun kv => !sampleDeleted.Exists kv.Key) :=
  ⟨sampleDeleted_reachable, sampleMap_reachable,
    match C11_append_keeps_receiver sampleDeleted sampleMap sampleDeleted_reachable
      sampleMap_reachable with
    | ⟨a1, h1, h2, _⟩ => ⟨a1, h1, h2⟩⟩

theorem C12_append_overwrites_witness :
    Reachable sampleDeleted ∧ Reachable sampleMap ∧
    ∃ a1 : OrderedMap, sampleDeleted.Append sampleMap true = some a1 ∧
      a1.GetKeys = sampleDeleted.GetKeys ++
        sampleMap.GetKeys.filter (fun k => !sampleDeleted.Exists k) :=
  ⟨sampleDeleted_reachable, sampleMap_reachable,
    match C12_append_overwrites sampleDeleted sampleMap sampleDeleted_reachable
      sampleMap_reachable with
    | ⟨a1, h1, h2, _⟩ => ⟨a1, h1, h2⟩⟩

theorem C13_getList_agrees_with_getKeys_witness :
    Reachable sampleDeleted ∧
    sampleDeleted.GetList.map KV.Key = sampleDeleted.GetKeys ∧
    sampleDeleted.GetList.length = sampleDeleted.GetKeys.length :=
  ⟨sampleDeleted_reachable,
    (C13_getList_agrees_with_getKeys sampleDeleted sampleDeleted_reachable).1,
    (C13_getList_agrees_with_getKeys sampleDeleted sampleDeleted_reachable).2.1⟩

theorem C14_marshal_object_text_witness :
    (∀ kv ∈ scenarioMap.GetList,
      sampleEncKey kv.Key = Except.ok ("\x22" ++ kv.Key ++ "\x22") ∧
      sampleEncValue kv.Value = Except.ok (sampleValueText kv.Value)) ∧
    scenarioMap.MarshalJSON sampleEncKey sampleEncValue =
      Except.ok (objectText (fun k => "\x22" ++ k ++ "\x22") sampleValueText
        scenarioMap.GetList) :=
  have hok : ∀ kv ∈ scenarioMap.GetList,
      sampleEncKey kv.Key = Except.ok ("\x22" ++ kv.Key ++ "\x22") ∧
      sampleEncValue kv.Value = Except.ok (sampleValueText kv.Value) := by
    intro kv hkv
    have hcases : kv = { Key := "x", Value := ValueType.int 3 } ∨
        kv = { Key := "z", Value := ValueType.int 4 } := by
      simpa [scenarioMap, OrderedMap.GetList] using hkv
    rcases hcases with hx | hz
    · rw [hx]
      exact ⟨rfl, rfl⟩
    · rw [hz]
      exact ⟨rfl, rfl⟩
  ⟨hok,
    (C14_marshal_object_text scenarioMap sampleEncKey sampleEncValue
      (fun k => "\x22" ++ k ++ "\x22") sampleValueText hok).1⟩

theorem C15_marshal_fails_iff_witness :
    ({ Key := "f", Value := ValueType.func 0 } : KV) ∈ sampleFuncMap.GetList ∧
    ∃ err, sampleFuncMap.MarshalJSON sampleEncKey sampleEncValue = Except.error err :=
  ⟨by decide,
    (C15_marshal_fails_iff sampleFuncMap sampleEncKey sampleEncValue).1.2
      ⟨{ Key := "f", Value := ValueType.func 0 }, by decide,
        Or.inr ⟨"json: unsupported type", rfl⟩⟩⟩

theorem C17_operations_total_witness :
    Reachable sampleDeleted ∧ Reachable sampleMap ∧
    (∃ om1 : OrderedMap, sampleDeleted.Set "x" (ValueType.int 7) = some om1) ∧
    (∃ r : ValueType, sampleDeleted.Get "x" = some r) ∧
    (∃ om1 : OrderedMap, sampleDeleted.Delete "x" = some om1) :=
  ⟨sampleDeleted_reachable, sampleMap_reachable,
    (C17_operations_total sampleDeleted sampleDeleted_reachable "x" (ValueType.int 7)
      sampleMap sampleMap_reachable true).2.1,
    (C17_operations_total sampleDeleted sampleDeleted_reachable "x" (ValueType.int 7)
      sampleMap sampleMap_reachable true).2.2.1,
    (C17_operations_total sampleDeleted sampleDeleted_reachable "x" (ValueType.int 7)
      sampleMap sampleMap_reachable true).2.2.2.1⟩

theorem C18_new_returns_on_pairs_witness :
    (∀ p ∈ sampleArgs, p ≠ none) ∧
    ∃ om : OrderedMap, NewOrderedMap sampleArgs = some om :=
  ⟨by decide, (C18_new_returns_on_pairs sampleArgs (by decide)).1⟩

theorem C19_append_idempotent_witness :
    Reachable sampleDeleted ∧ Reachable sampleMap ∧
    (∃ m1 : OrderedMap, sampleDeleted.Append sampleDeleted true = some m1 ∧
      m1 = sampleDeleted ∧ m1.GetList = sampleDeleted.GetList ∧
      m1.GetKeys = sampleDeleted.GetKeys ∧ m1.Len = sampleDeleted.Len) ∧
    (∃ a1 a2 : OrderedMap, sampleDeleted.Append sampleMap true = some a1 ∧
      a1.Append sampleMap true = some a2 ∧ a2.GetList = a1.GetList) :=
  ⟨sampleDeleted_reachable, sampleMap_reachable,
    (C19_append_idempotent sampleDeleted sampleDeleted sampleMap sampleDeleted_reachable
      sampleDeleted_reachable sampleMap_reachable true).1,
    (C19_append_idempotent sampleDeleted sampleDeleted sampleMap sampleDeleted_reachable
      sampleDeleted_reachable sampleMap_reachable true).2.2⟩
